import Mathlib

set_option linter.unusedVariables false

/-! Verification of the MiniRDBMS engine (`toy.py`): a shallow embedding of
the in-memory table storage, hash indexing, constraint checking, the
predicate/join resolver and the two-table join executor, together with
proofs about them.

Modelling conventions, stated once:
* Machine values are `Int`/`String`/`Bool`; Python floats are kept as their
  lexical text (`DataValue.float`), since no verified claim exercises float
  arithmetic or float ordering.
* Equality of data values is structural.  Python's cross-type numeric
  equality (`1 == True`, `1 == 1.0`) and cross-type ordering (which raises
  `TypeError`) are not exercised by any verified claim.
* Python dicts are association lists in insertion order; Python sets are
  duplicate-free lists (iteration order of a Python set is unspecified, and
  no verified claim depends on it).
* A raised exception is an `Except.error` carrying the message; stateful
  operations return the table state alongside the result, so that the state
  at the moment an exception escapes is observable. -/

/-- Python runtime types usable as column dtypes (`int`, `str`, `float`, `bool`). -/
inductive Dtype where
  | int | str | float | bool
deriving DecidableEq, Repr

/-- Python `__name__` of a dtype, as interpolated into error messages. -/
def Dtype.pyName : Dtype → String
  | .int => "int" | .str => "str" | .float => "float" | .bool => "bool"

/-- `DataValue = typing.Union[int, str, float, bool, None]`. -/
inductive DataValue where
  | int (i : Int)
  | str (s : String)
  | float (lex : String)
  | bool (b : Bool)
  | null
deriving DecidableEq, Repr

/-- Python `repr` of a data value, as interpolated into constraint
violation messages (`f"... = {value!r}"`). -/
def dvRepr : DataValue → String
  | .int i => toString i
  | .str s => "\x27" ++ s ++ "\x27"
  | .float lex => lex
  | .bool b => if b then "True" else "False"
  | .null => "None"

/-- A row: an insertion-ordered mapping from column name to value (a Python
`dict`). -/
abbrev Row := List (String × DataValue)

/-- Key presence and value: `some v` iff key `k` is present in the dict. -/
def rowGet? (r : Row) (k : String) : Option DataValue :=
  (r.find? (fun p => p.1 == k)).map Prod.snd

/-- `r.get(k)`: `None` (`.null`) when the key is absent. -/
def rowGet (r : Row) (k : String) : DataValue :=
  (rowGet? r k).getD .null

/-- `r[k] = v`: replace the value in place, or append a new key (dict
insertion order). -/
def rowSet (r : Row) (k : String) (v : DataValue) : Row :=
  match r with
  | [] => [(k, v)]
  | (k', v') :: rest => if k' == k then (k, v) :: rest else (k', v') :: rowSet rest k v

/-- `HashIndex.data`: value → set of row positions.  The dict is an
association list; each positions set is a duplicate-free list. -/
structure HashIndex where
  data : List (DataValue × List Nat)
deriving DecidableEq, Repr

/-- Python `set.add`: no duplicates. -/
def setAdd (p : Nat) (s : List Nat) : List Nat :=
  if p ∈ s then s else s ++ [p]

def hidxAddGo (v : DataValue) (p : Nat) : List (DataValue × List Nat) → List (DataValue × List Nat)
  | [] => [(v, [p])]
  | (w, s) :: rest => if w == v then (w, setAdd p s) :: rest else (w, s) :: hidxAddGo v p rest

/-- `HashIndex.add`: `self.data[value].add(rowid)`; the `defaultdict`
creates the set when the key is absent. -/
def HashIndex.add (h : HashIndex) (v : DataValue) (p : Nat) : HashIndex :=
  ⟨hidxAddGo v p h.data⟩

def hidxRemoveGo (v : DataValue) (p : Nat) : List (DataValue × List Nat) → List (DataValue × List Nat)
  | [] => []
  | (w, s) :: rest =>
    if w == v then
      if s = [] then (w, s) :: rest
      else
        let s' := s.erase p
        if s' = [] then rest else (w, s') :: rest
    else (w, s) :: hidxRemoveGo v p rest

/-- `HashIndex.remove`: `s = data.get(value); if s: s.discard(rowid);
if not s: del data[value]`.  Discarding from a duplicate-free list is
`List.erase`. -/
def HashIndex.remove (h : HashIndex) (v : DataValue) (p : Nat) : HashIndex :=
  ⟨hidxRemoveGo v p h.data⟩

/-- `HashIndex.lookup`: defensive copy of the positions set; an absent key
yields the empty set. -/
def HashIndex.lookup (h : HashIndex) (v : DataValue) : List Nat :=
  ((h.data.find? (fun e => e.1 == v)).map Prod.snd).getD []

/-- Column schema definition. -/
structure Column where
  name : String
  dtype : Dtype
  nullable : Bool
deriving DecidableEq, Repr

/-- In-memory table.  `columns` keeps declaration order (the source's
`column_order`); the name→`Column` dict of the source is recovered by
lookup.  The private fields `_autoincrement_pk` / `_pk_counter` drop their
underscore. -/
structure Table where
  name : String
  columns : List Column
  rows : List Row
  pk_column : Option String
  unique_columns : List String
  indexes : List (String × HashIndex)
  autoincrement_pk : Bool
  pk_counter : Int
deriving DecidableEq, Repr

def Table.column_order (t : Table) : List String := t.columns.map Column.name

/-- `self.columns[k]`: dict lookup by column name.  (With duplicate column
names Python's dict would keep the last declaration; no claim exercises
duplicate names.) -/
def Table.getCol (t : Table) (k : String) : Option Column :=
  t.columns.find? (fun c => c.name == k)

/-- `self.indexes[k]` presence and value (also `k in self.indexes`). -/
def Table.getIndex (t : Table) (k : String) : Option HashIndex :=
  (t.indexes.find? (fun e => e.1 == k)).map Prod.snd

/-- Python `set.add` on a set of column names. -/
def strSetAdd (s : List String) (x : String) : List String :=
  if x ∈ s then s else s ++ [x]

/-- `Table._ensure_index`: create the index if missing. -/
def Table.ensure_index (t : Table) (colname : String) : Table :=
  match t.getIndex colname with
  | some _ => t
  | none => { t with indexes := t.indexes ++ [(colname, ⟨[]⟩)] }

/-- `Table.define_primary_key`: single-column primary key; auto-increment
is enabled only when requested and the column's dtype is `int`. -/
def Table.define_primary_key (t : Table) (colname : String) (autoincrement : Bool) :
    Table × Except String Unit :=
  if (t.getCol colname).isNone then
    (t, .error ("Column " ++ colname ++ " does not exist"))
  else if t.pk_column.isSome then
    (t, .error "Primary key already defined")
  else
    let t1 := { t with pk_column := some colname,
                       unique_columns := strSetAdd t.unique_columns colname }
    let t2 := t1.ensure_index colname
    let t3 :=
      if autoincrement && (match t.getCol colname with
          | some c => c.dtype == Dtype.int
          | none => false) then
        { t2 with autoincrement_pk := true }
      else t2
    (t3, .ok ())

/-- `Table.add_unique`: add a UNIQUE constraint and ensure its index. -/
def Table.add_unique (t : Table) (colname : String) : Table × Except String Unit :=
  if (t.getCol colname).isNone then
    (t, .error ("Column " ++ colname ++ " does not exist"))
  else
    (({ t with unique_columns := strSetAdd t.unique_columns colname }).ensure_index colname,
      .ok ())

/-- `isinstance(v, dtype)` on our value universe; Python's `bool` is a
subclass of `int`, so a bool is an instance of `int` (the source rejects it
for int columns with an explicit earlier check), while an int is not an
instance of `float` or `bool`. -/
def isinstanceDV : DataValue → Dtype → Bool
  | .int _, .int => true
  | .bool _, .int => true
  | .float _, .float => true
  | .str _, .str => true
  | .bool _, .bool => true
  | _, _ => false

def isBoolDV : DataValue → Bool
  | .bool _ => true
  | _ => false

/-- The unique/PK violation message (`f"Unique/PK violation on {col} = {value!r}"`). -/
def uniqueMsg (col : String) (v : DataValue) : String :=
  "Unique/PK violation on " ++ col ++ " = " ++ dvRepr v

/-- `Table._check_unique_violation`: `some msg` is a raised error, `none`
is a normal return.  `self.indexes[col]` raises `KeyError` when the column
has no index. -/
def Table.check_unique_violation (t : Table) (col : String) (v : DataValue)
    (exclude_rowid : Option Nat) : Option String :=
  if col ∈ t.unique_columns then
    match t.getIndex col with
    | none => some ("KeyError: " ++ col)
    | some idx =>
      let ms := idx.lookup v
      let ms := match exclude_rowid with
        | some r => ms.erase r
        | none => ms
      if ms.isEmpty then none else some (uniqueMsg col v)
  else none

/-- The NOT NULL / strict type check loop of `Table.insert`, over the built
row in column order. -/
def validateRowGo (t : Table) : List (String × DataValue) → Option String
  | [] => none
  | (k, v) :: rest =>
    match t.getCol k with
    | none => some ("KeyError: " ++ k)
    | some col =>
      match v with
      | .null =>
        if col.nullable then validateRowGo t rest
        else some ("NOT NULL column " ++ k ++ " missing value")
      | _ =>
        if col.dtype == Dtype.int && isBoolDV v then
          some ("Type mismatch for " ++ k ++ ": expected int")
        else if !isinstanceDV v col.dtype then
          some ("Type mismatch for " ++ k ++ ": expected " ++ col.dtype.pyName)
        else validateRowGo t rest

/-- The auto-increment block of `Table.insert`.  It runs before any
validation, so the counter can change even when the insert later raises.
A supplied `.bool` participates in `max` as 0/1 (a Python bool is an int);
a supplied `.str` makes Python's `max` itself raise `TypeError`.  A
supplied `.float` would make Python's `max` store a float into the counter
and the insert then fails the integer type check; the counter here is
`Int`, so it is left unchanged and the same type-mismatch error is raised
by the subsequent check — no claim observes the counter after a float pk
value. -/
def autoincResolve (t : Table) (values : Row) (row0 : Row) : Table × Except String Row :=
  if t.autoincrement_pk then
    match t.pk_column with
    | none => (t, .ok row0)
    | some pk =>
      match rowGet values pk with
      | .null =>
        let ctr := t.pk_counter + 1
        ({ t with pk_counter := ctr }, .ok (rowSet row0 pk (.int ctr)))
      | .int m => ({ t with pk_counter := max t.pk_counter m }, .ok row0)
      | .bool b => ({ t with pk_counter := max t.pk_counter (if b then 1 else 0) }, .ok row0)
      | .float _ => (t, .ok row0)
      | .str _ => (t, .error "TypeError: max comparison between str and int")
  else (t, .ok row0)

/-- The uniqueness validation loop of `Table.insert`
(`for col in self.unique_columns`). -/
def checkUniquesGo (t : Table) (row : Row) : List String → Option String
  | [] => none
  | c :: rest =>
    match t.check_unique_violation c (rowGet row c) none with
    | some e => some e
    | none => checkUniquesGo t row rest

/-- `Table.insert`: build the full row (absent keys default to null),
resolve auto-increment, validate NOT NULL and types, validate uniqueness,
then append the row and update every index.  Returns the table state at
return or at the moment an exception escapes, with the assigned rowid or
the error. -/
def Table.insert (t : Table) (values : Row) : Table × Except String Nat :=
  let row0 : Row := t.columns.map (fun c => (c.name, rowGet values c.name))
  match autoincResolve t values row0 with
  | (t1, .error e) => (t1, .error e)
  | (t1, .ok row1) =>
    match validateRowGo t1 row1 with
    | some e => (t1, .error e)
    | none =>
      match checkUniquesGo t1 row1 t1.unique_columns with
      | some e => (t1, .error e)
      | none =>
        let rowid := t1.rows.length
        ({ t1 with
            rows := t1.rows ++ [row1],
            indexes := t1.indexes.map (fun e => (e.1, e.2.add (rowGet row1 e.1) rowid)) },
          .ok rowid)

/-- Predicate application with `where_fn=None` meaning "all rows". -/
def matchFn (wfn : Option (Row → Bool)) (r : Row) : Bool :=
  match wfn with
  | none => true
  | some f => f r

/-- The per-row validation loop of `Table.update`: a unique-column
assignment whose new value differs from the current one is checked against
the index, excluding the row's own position. -/
def validateAssignments (t : Table) (rowid : Nat) (row : Row) :
    List (String × DataValue) → Option String
  | [] => none
  | (col, v) :: rest =>
    if col ∈ t.unique_columns ∧ v ≠ rowGet row col then
      match t.check_unique_violation col v (some rowid) with
      | some e => some e
      | none => validateAssignments t rowid row rest
    else validateAssignments t rowid row rest

/-- The per-row mutation loop of `Table.update`: store the new value and
keep any index on the touched column in lockstep.  `old = row[col]` raises
`KeyError` when the column is absent — after earlier assignments in the
same loop have already been applied. -/
def applyAssignments (rowid : Nat) : Table → List (String × DataValue) → Table × Option String
  | t, [] => (t, none)
  | t, (col, v) :: rest =>
    match t.rows[rowid]? with
    | none => (t, some "IndexError: list index out of range")
    | some row =>
      match rowGet? row col with
      | none => (t, some ("KeyError: " ++ col))
      | some old =>
        let t1 := { t with rows := t.rows.set rowid (rowSet row col v) }
        let t2 :=
          match t1.getIndex col with
          | some _ =>
            { t1 with indexes := t1.indexes.map (fun e =>
                if e.1 == col then (e.1, (e.2.remove old rowid).add v rowid) else e) }
          | none => t1
        applyAssignments rowid t2 rest

/-- The row loop of `Table.update`.  Every row dict is a distinct object
(each insert builds a fresh dict) and each position is visited once, so
iterating the entry snapshot while threading the table state reproduces
Python's in-place iteration over the live list. -/
def updateGo (asg : List (String × DataValue)) (wfn : Option (Row → Bool)) :
    List Row → Nat → Nat → Table → Table × Except String Nat
  | [], _, count, t => (t, .ok count)
  | row :: rest, rowid, count, t =>
    if matchFn wfn row then
      match validateAssignments t rowid row asg with
      | some e => (t, .error e)
      | none =>
        match applyAssignments rowid t asg with
        | (t1, some e) => (t1, .error e)
        | (t1, none) => updateGo asg wfn rest (rowid + 1) (count + 1) t1
    else updateGo asg wfn rest (rowid + 1) count t

/-- `Table.update`: iterate rows in position order; a matching row is first
validated (unique-column assignments only), then mutated with its indexes
maintained.  Returns the count of matched rows or the first raised error,
with the table state at that point. -/
def Table.update (t : Table) (assignments : List (String × DataValue))
    (where_fn : Option (Row → Bool)) : Table × Except String Nat :=
  updateGo assignments where_fn t.rows 0 0 t

def buildIndexGo (col : String) : List Row → Nat → HashIndex → HashIndex
  | [], _, idx => idx
  | r :: rest, rowid, idx => buildIndexGo col rest (rowid + 1) (idx.add (rowGet r col) rowid)

/-- `Table._rebuild_indexes`: clear every index, then re-add every current
row under its recomputed position. -/
def Table.rebuild_indexes (t : Table) : Table :=
  { t with indexes := t.indexes.map (fun e => (e.1, buildIndexGo e.1 t.rows 0 ⟨[]⟩)) }

/-- `Table.delete`: without a predicate clear all rows and all indexes and
reset the auto-increment counter, returning the prior row count; with a
predicate keep the non-matching rows in order, rebuild all indexes and
leave the counter untouched, returning the matched count. -/
def Table.delete (t : Table) (where_fn : Option (Row → Bool)) : Table × Except String Nat :=
  match where_fn with
  | none =>
    ({ t with rows := [],
              indexes := t.indexes.map (fun e => (e.1, (⟨[]⟩ : HashIndex))),
              pk_counter := 0 },
      .ok t.rows.length)
  | some f =>
    let new_rows := t.rows.filter (fun r => !f r)
    let count := t.rows.countP (fun r => f r)
    ({ t with rows := new_rows }.rebuild_indexes, .ok count)

/-- Python `<` on data values, total on the same-type int/str/bool
comparisons the claims exercise; a mixed-type comparison raises
`TypeError` in Python and is arbitrarily `false` here (floats compare by
their lexical text stand-in; no claim orders floats or mixed types). -/
def dvLtB : DataValue → DataValue → Bool
  | .int a, .int b => a < b
  | .str a, .str b => a < b
  | .bool a, .bool b => !a && b
  | .bool a, .int b => (if a then (1 : Int) else 0) < b
  | .int a, .bool b => a < (if b then (1 : Int) else 0)
  | .float a, .float b => a < b
  | _, _ => false

def dvGtB (a b : DataValue) : Bool := dvLtB b a

/-- Stable insertion: `x` is placed before the first element it need not
follow, so elements with equal keys keep their original relative order. -/
def stableInsert (le : Row → Row → Bool) (x : Row) : List Row → List Row
  | [] => [x]
  | y :: ys => if le x y then x :: y :: ys else y :: stableInsert le x ys

/-- Stable sort (insertion sort), producing the unique stable order for a
total comparator — the output of Python's stable `list.sort`. -/
def stableSort (le : Row → Row → Bool) : List Row → List Row
  | [] => []
  | x :: xs => stableInsert le x (stableSort le xs)

/-- Comparator of `result.sort(key=lambda r: r.get(col), reverse=desc)`:
`a` may precede `b` unless the keys order them strictly the other way. -/
def sortLe (col : String) (desc : Bool) (a b : Row) : Bool :=
  if desc then !dvLtB (rowGet a col) (rowGet b col)
  else !dvLtB (rowGet b col) (rowGet a col)

/-- `Table.select`: filter, then project, then stable order, then limit.
Returned rows are fresh values by construction (the source's defensive
copies; aliasing has no meaning in a pure embedding).  The SQL executor
only ever passes a non-negative literal limit. -/
def Table.select (t : Table) (proj : Option (List String)) (where_fn : Option (Row → Bool))
    (order_by : Option (String × Bool)) (limit : Option Nat) : List Row :=
  let rows := match where_fn with
    | some f => t.rows.filter f
    | none => t.rows
  let result :=
    if proj = none ∨ proj = some ["*"] then rows
    else
      let p := proj.getD []
      rows.map (fun r => p.filterMap (fun c => (rowGet? r c).map (fun v => (c, v))))
  let result :=
    match order_by with
    | some ob => stableSort (sortLe ob.1 ob.2) result
    | none => result
  match limit with
  | some n => result.take n
  | none => result

/-- Parsed expression nodes — the sqlglot subtree shapes the engine
inspects.  A literal carries its text and its lexical class flags
(`is_int`, `is_number`); a column carries its name and table qualifier
(empty when unqualified); `other` stands for any unsupported node
(OR, NOT, ...). -/
inductive Expr where
  | lit (this : String) (is_int : Bool) (is_number : Bool)
  | col (cname : String) (ctable : String)
  | eq (left right : Expr)
  | gt (left right : Expr)
  | lt (left right : Expr)
  | and (left right : Expr)
  | other (descr : String)
deriving DecidableEq, Repr

/-- `expr.name` on sqlglot nodes: a column's name, a literal's text. -/
def Expr.name : Expr → String
  | .col n _ => n
  | .lit s _ _ => s
  | _ => ""

/-- `expr.table` on sqlglot nodes (empty for non-columns / unqualified). -/
def Expr.table : Expr → String
  | .col _ t => t
  | _ => ""

def Expr.isLiteral : Expr → Bool
  | .lit _ _ _ => true
  | _ => false

def Expr.isColumn : Expr → Bool
  | .col _ _ => true
  | _ => false

/-- `parse_literal`: convert a SQL literal node to a Python value — an
integer when `is_int` (sqlglot guarantees the text parses; the `getD 0`
default is unreachable for well-formed literals), a float for other
numbers (kept as lexical text), otherwise the text itself.  A non-literal
node yields Python `None`, i.e. the null data value. -/
def parse_literal (e : Expr) : DataValue :=
  match e with
  | .lit s is_i is_n =>
    if is_i then .int ((s.toInt?).getD 0)
    else if is_n then .float s
    else .str s
  | _ => .null

/-- Result shapes of `build_predicate`: a callable row filter, the
`("JOIN", t1, c1, t2, c2)` tuple, or (from `AND`) the 2-tuple of the first
tuple found and the collected callables.  Mirrors the source's dynamic
`isinstance(p, tuple)` / `callable(p)` dispatch, under which both tuple
shapes count as tuples. -/
inductive PredResult where
  | filt (f : Row → Bool)
  | joinT (t1 c1 t2 c2 : String)
  | pair (j : PredResult) (fs : List (Row → Bool))

def PredResult.isTuple : PredResult → Bool
  | .joinT _ _ _ _ => true
  | .pair _ _ => true
  | .filt _ => false

def PredResult.getFilt : PredResult → Option (Row → Bool)
  | .filt f => some f
  | _ => none

/-- `build_predicate`: build a row filter or detect a join condition.
`table_map` is the set of known table names (`None` when not supplied; an
empty dict is falsy like `None`).  An unsupported shape raises
`NotImplementedError` (the source interpolates the node's repr into the
message; the message text is uniform here). -/
def build_predicate (e : Expr) (table_map : Option (List String)) :
    Except String PredResult :=
  match e with
  | .eq l r =>
    let tmTruthy := match table_map with
      | some ts => !ts.isEmpty
      | none => false
    if l.isColumn && r.isColumn && tmTruthy && !(l.table == r.table)
        && (table_map.getD []).contains l.table && (table_map.getD []).contains r.table then
      .ok (.joinT l.table l.name r.table r.name)
    else
      let val := parse_literal r
      if val ≠ DataValue.null then
        .ok (.filt (fun row => rowGet row l.name == val))
      else
        .error "Condition not supported"
  | .gt l r =>
    let val := parse_literal r
    if val ≠ DataValue.null then
      .ok (.filt (fun row => dvGtB (rowGet row l.name) val))
    else
      .error "Condition not supported"
  | .lt l r =>
    let val := parse_literal r
    if val ≠ DataValue.null then
      .ok (.filt (fun row => dvLtB (rowGet row l.name) val))
    else
      .error "Condition not supported"
  | .and l r =>
    match build_predicate l table_map with
    | .error e => .error e
    | .ok p1 =>
      match build_predicate r table_map with
      | .error e => .error e
      | .ok p2 =>
        let joins := [p1, p2].filter PredResult.isTuple
        let filters := [p1, p2].filterMap PredResult.getFilt
        match joins with
        | j :: _ => .ok (.pair j filters)
        | [] => .ok (.filt (fun row => filters.all (fun p => p row)))
  | _ => .error "Condition not supported"

/-- Qualify every key of a row as `table.column`. -/
def qualifyRow (tname : String) (r : Row) : Row :=
  r.map (fun e => (tname ++ "." ++ e.1, e.2))

/-- `row.update(other)`: assign every entry of `other` into `row`. -/
def rowUpdate (r other : Row) : Row :=
  other.foldl (fun acc e => rowSet acc e.1 e.2) r

/-- The two-table join branch of `execute`: a nested-loop equality join in
left-row-major order.  The residual filter, when present, is applied to
the left row alone; a combined row carries the qualified keys of both
sides. -/
def execJoin (t1 : String) (rows1 : List Row) (t2 : String) (rows2 : List Row)
    (c1 c2 : String) (filter_fn : Option (Row → Bool)) : List Row :=
  rows1.foldr (fun r1 acc =>
    if (match filter_fn with | some f => !f r1 | none => false) then acc
    else
      (rows2.filterMap (fun r2 =>
        if rowGet r2 c2 == rowGet r1 c1 then
          some (rowUpdate (qualifyRow t1 r1) (qualifyRow t2 r2))
        else none)) ++ acc) []

/-- One mutating table operation, for stating the invariant over arbitrary
operation sequences. -/
inductive Op where
  | ins (values : Row)
  | upd (assignments : List (String × DataValue)) (where_fn : Option (Row → Bool))
  | del (where_fn : Option (Row → Bool))

/-- Apply one operation, keeping the resulting state whether or not the
operation raised. -/
def applyOp (t : Table) : Op → Table
  | .ins v => (t.insert v).1
  | .upd a w => (t.update a w).1
  | .del w => (t.delete w).1

def applyOps (t : Table) (ops : List Op) : Table :=
  ops.foldl applyOp t

/-- The scan-derived contents of an index: position `p` is associated to
value `v` exactly when the row at position `p` holds `v` in the column. -/
def scanConsistent (rows : List Row) (col : String) (idx : HashIndex) : Prop :=
  ∀ v p, p ∈ idx.lookup v ↔ ∃ r, rows[p]? = some r ∧ rowGet r col = v

/-- Structural well-formedness of an index as a dict of sets: distinct
keys and duplicate-free position sets — what a Python dict of sets is by
construction. -/
def HashIndex.Wf (h : HashIndex) : Prop :=
  (h.data.map Prod.fst).Nodup ∧ ∀ e ∈ h.data, e.2.Nodup

/-- The index-consistency invariant: the index dict has one entry per key,
every column in `unique_columns` has an index (hence, with distinct keys,
exactly one), and every index's contents equal what a full scan of the
current rows derives. -/
def Table.Wf (t : Table) : Prop :=
  (t.indexes.map Prod.fst).Nodup ∧
  (∀ c ∈ t.unique_columns, ∃ e ∈ t.indexes, e.1 = c) ∧
  (∀ e ∈ t.indexes, e.2.Wf ∧ scanConsistent t.rows e.1 e.2)

/-! Basic lemmas about rows and hash indexes. -/

theorem rowGet?_cons (k' : String) (v' : DataValue) (l : Row) (k : String) :
    rowGet? ((k', v') :: l) k = if (k' == k : Bool) then some v' else rowGet? l k := by
  simp only [rowGet?, List.find?_cons]
  cases h : (k' == k : Bool) <;> simp

theorem rowGet?_rowSet_self (r : Row) (k : String) (v : DataValue) :
    rowGet? (rowSet r k v) k = some v := by
  induction r with
  | nil => simp [rowSet, rowGet?]
  | cons e rest ih =>
    obtain ⟨k', v'⟩ := e
    by_cases h : k' = k
    · subst h; simp [rowSet, rowGet?_cons]
    · simp only [rowSet, beq_iff_eq, h, if_false, rowGet?_cons]
      simpa [h] using ih

theorem rowGet?_rowSet_ne (r : Row) (k k' : String) (v : DataValue) (h : k' ≠ k) :
    rowGet? (rowSet r k v) k' = rowGet? r k' := by
  induction r with
  | nil => simp [rowSet, rowGet?_cons, Ne.symm h, rowGet?]
  | cons e rest ih =>
    obtain ⟨k₀, v₀⟩ := e
    by_cases h₀ : k₀ = k
    · subst h₀
      simp [rowSet, rowGet?_cons, Ne.symm h, fun hx : k₀ = k' => h (hx.symm.trans rfl)]
    · simp only [rowSet, beq_iff_eq, h₀, if_false, rowGet?_cons]
      by_cases h₁ : k₀ = k'
      · simp [h₁]
      · simp [h₁, ih]

theorem rowGet_rowSet_self (r : Row) (k : String) (v : DataValue) :
    rowGet (rowSet r k v) k = v := by
  simp [rowGet, rowGet?_rowSet_self]

theorem rowGet_rowSet_ne (r : Row) (k k' : String) (v : DataValue) (h : k' ≠ k) :
    rowGet (rowSet r k v) k' = rowGet r k' := by
  simp [rowGet, rowGet?_rowSet_ne r k k' v h]

theorem rowGet_eq_of_rowGet? (r : Row) (k : String) (x : DataValue) (h : rowGet? r k = some x) :
    rowGet r k = x := by
  simp [rowGet, h]

theorem rowGet?_rowSet_isSome (r : Row) (k k' : String) (v : DataValue)
    (h : (rowGet? r k').isSome) : (rowGet? (rowSet r k v) k').isSome := by
  by_cases hk : k' = k
  · subst hk; simp [rowGet?_rowSet_self]
  · rwa [rowGet?_rowSet_ne r k k' v hk]

theorem mem_setAdd (p q : Nat) (s : List Nat) : p ∈ setAdd q s ↔ p = q ∨ p ∈ s := by
  by_cases h : q ∈ s
  · simp only [setAdd, h, if_true]
    exact ⟨Or.inr, fun hp => hp.elim (fun he => he ▸ h) id⟩
  · simp [setAdd, h, or_comm]

theorem setAdd_nodup (q : Nat) (s : List Nat) (h : s.Nodup) : (setAdd q s).Nodup := by
  by_cases hq : q ∈ s
  · simpa [setAdd, hq] using h
  · simp only [setAdd, hq, if_false]
    exact h.append (List.nodup_singleton q) (by simpa using hq)

theorem lookup_nil (v : DataValue) : HashIndex.lookup ⟨[]⟩ v = [] := rfl

theorem lookup_cons (w : DataValue) (s : List Nat) (l : List (DataValue × List Nat))
    (v : DataValue) :
    HashIndex.lookup ⟨(w, s) :: l⟩ v = if (w == v : Bool) then s else HashIndex.lookup ⟨l⟩ v := by
  simp only [HashIndex.lookup, List.find?_cons]
  cases h : (w == v : Bool) <;> simp

theorem lookup_eq_nil_of_not_mem_keys (l : List (DataValue × List Nat)) (v : DataValue)
    (h : v ∉ l.map Prod.fst) : HashIndex.lookup ⟨l⟩ v = [] := by
  induction l with
  | nil => rfl
  | cons e rest ih =>
    obtain ⟨k, s⟩ := e
    simp only [List.map_cons, List.mem_cons, not_or] at h
    rw [lookup_cons, if_neg (by simpa using fun hk : k = v => h.1 hk.symm)]
    exact ih h.2

theorem mem_lookup_add (h : HashIndex) (w : DataValue) (q p : Nat) (v : DataValue) :
    p ∈ (h.add w q).lookup v ↔ (v = w ∧ p = q) ∨ p ∈ h.lookup v := by
  obtain ⟨l⟩ := h
  show p ∈ HashIndex.lookup ⟨hidxAddGo w q l⟩ v ↔ _
  induction l with
  | nil =>
    rw [show hidxAddGo w q [] = [(w, [q])] from rfl, lookup_cons, lookup_nil]
    by_cases hwv : w = v
    · subst hwv; simp [eq_comm]
    · simp [hwv, Ne.symm hwv]
  | cons e rest ih =>
    obtain ⟨k, s⟩ := e
    by_cases hkw : k = w
    · subst hkw
      rw [show hidxAddGo k q ((k, s) :: rest) = (k, setAdd q s) :: rest from by
          simp [hidxAddGo]]
      rw [lookup_cons, lookup_cons]
      by_cases hkv : k = v
      · subst hkv; simp [mem_setAdd, or_comm, and_comm]
      · simp only [beq_iff_eq, hkv, if_false]
        have : ¬(v = k) := fun hv => hkv hv.symm
        simp [this]
    · rw [show hidxAddGo w q ((k, s) :: rest) = (k, s) :: hidxAddGo w q rest from by
          simp [hidxAddGo, hkw]]
      rw [lookup_cons, lookup_cons]
      by_cases hkv : k = v
      · subst hkv
        have : ¬(k = w) := hkw
        simp [fun hv : k = w => hkw hv, fun hv : w = k => hkw hv.symm]
      · simp only [beq_iff_eq, hkv, if_false]
        exact ih

theorem eraseEqNilCases (s : List Nat) (q : Nat) (h : s.erase q = []) : s = [] ∨ s = [q] := by
  cases s with
  | nil => exact Or.inl rfl
  | cons x xs =>
    rw [List.erase_cons] at h
    by_cases hx : x = q
    · subst hx
      simp only [beq_self_eq_true, if_true] at h
      exact Or.inr (by rw [h])
    · simp only [beq_iff_eq, hx, if_false] at h
      exact absurd h (List.cons_ne_nil x _)

theorem lookup_nodup (h : HashIndex) (hwf : h.Wf) (v : DataValue) : (h.lookup v).Nodup := by
  obtain ⟨l⟩ := h
  show (((l.find? (fun e => e.1 == v)).map Prod.snd).getD []).Nodup
  cases hf : l.find? (fun e => e.1 == v) with
  | none => simp
  | some e =>
    exact hwf.2 e (List.mem_of_find?_eq_some hf)

theorem mem_lookup_removeGo (w : DataValue) (q p : Nat) (v : DataValue) :
    ∀ (l : List (DataValue × List Nat)), (l.map Prod.fst).Nodup → (∀ e ∈ l, e.2.Nodup) →
      (p ∈ HashIndex.lookup ⟨hidxRemoveGo w q l⟩ v ↔
        p ∈ HashIndex.lookup ⟨l⟩ v ∧ ¬(v = w ∧ p = q)) := by
  intro l
  induction l with
  | nil => intro _ _; simp [hidxRemoveGo, lookup_nil]
  | cons e rest ih =>
    intro hkeys hsets
    obtain ⟨k, s⟩ := e
    have hkeys' : (rest.map Prod.fst).Nodup := (List.nodup_cons.mp (by simpa using hkeys)).2
    have hknotin : k ∉ rest.map Prod.fst := (List.nodup_cons.mp (by simpa using hkeys)).1
    have hsets' : ∀ e ∈ rest, e.2.Nodup := fun e he => hsets e (List.mem_cons_of_mem _ he)
    have hsnodup : s.Nodup := hsets (k, s) (List.mem_cons_self _ _)
    by_cases hkw : k = w
    · subst hkw
      by_cases hs : s = []
      · rw [show hidxRemoveGo k q ((k, s) :: rest) = (k, s) :: rest from by
            simp [hidxRemoveGo, hs]]
        rw [lookup_cons]
        by_cases hkv : k = v
        · subst hkv; simp [hs]
        · have hvk : ¬(v = k) := fun hv => hkv hv.symm
          rw [if_neg (by simpa using hkv)]
          simp [hvk]
      · by_cases hs' : s.erase q = []
        · rw [show hidxRemoveGo k q ((k, s) :: rest) = rest from by
              simp [hidxRemoveGo, hs, hs']]
          by_cases hkv : k = v
          · subst hkv
            rw [lookup_eq_nil_of_not_mem_keys rest k hknotin, lookup_cons, if_pos (by simp)]
            have hsq : s = [q] := by
              rcases eraseEqNilCases s q hs' with h0 | h1
              · exact absurd h0 hs
              · exact h1
            simp [hsq]
          · have hvk : ¬(v = k) := fun hv => hkv hv.symm
            rw [lookup_cons, if_neg (by simpa using hkv)]
            simp [hvk]
        · rw [show hidxRemoveGo k q ((k, s) :: rest) = (k, s.erase q) :: rest from by
              simp [hidxRemoveGo, hs, hs']]
          rw [lookup_cons, lookup_cons]
          by_cases hkv : k = v
          · subst hkv
            rw [if_pos (by simp), if_pos (by simp)]
            rw [List.Nodup.mem_erase_iff hsnodup]
            simp [and_comm]
          · have hvk : ¬(v = k) := fun hv => hkv hv.symm
            rw [if_neg (by simpa using hkv), if_neg (by simpa using hkv)]
            simp [hvk]
    · rw [show hidxRemoveGo w q ((k, s) :: rest) = (k, s) :: hidxRemoveGo w q rest from by
          simp [hidxRemoveGo, hkw]]
      rw [lookup_cons, lookup_cons]
      by_cases hkv : k = v
      · subst hkv
        have hvw : ¬(k = w) := hkw
        rw [if_pos (by simp), if_pos (by simp)]
        simp [hvw]
      · rw [if_neg (by simpa using hkv), if_neg (by simpa using hkv)]
        exact ih hkeys' hsets'

theorem mem_lookup_remove (h : HashIndex) (hwf : h.Wf) (w : DataValue) (q p : Nat)
    (v : DataValue) :
    p ∈ (h.remove w q).lookup v ↔ p ∈ h.lookup v ∧ ¬(v = w ∧ p = q) := by
  obtain ⟨l⟩ := h
  exact mem_lookup_removeGo w q p v l hwf.1 hwf.2

theorem keys_hidxAddGo (w : DataValue) (q : Nat) (l : List (DataValue × List Nat)) :
    (hidxAddGo w q l).map Prod.fst =
      if w ∈ l.map Prod.fst then l.map Prod.fst else l.map Prod.fst ++ [w] := by
  induction l with
  | nil => simp [hidxAddGo]
  | cons e rest ih =>
    obtain ⟨k, s⟩ := e
    by_cases hkw : k = w
    · subst hkw
      rw [show hidxAddGo k q ((k, s) :: rest) = (k, setAdd q s) :: rest from by
          simp [hidxAddGo]]
      simp
    · rw [show hidxAddGo w q ((k, s) :: rest) = (k, s) :: hidxAddGo w q rest from by
          simp [hidxAddGo, hkw]]
      have hwk : ¬(w = k) := fun hv => hkw hv.symm
      by_cases hmem : w ∈ rest.map Prod.fst
      · simp [hmem, hwk, ih]
      · simp [hmem, hwk, ih]

theorem sets_hidxAddGo (w : DataValue) (q : Nat) (l : List (DataValue × List Nat))
    (h : ∀ e ∈ l, e.2.Nodup) : ∀ e ∈ hidxAddGo w q l, e.2.Nodup := by
  induction l with
  | nil =>
    intro e he
    simp only [hidxAddGo, List.mem_singleton] at he
    subst he; simp
  | cons e₀ rest ih =>
    obtain ⟨k, s⟩ := e₀
    have hs : s.Nodup := h (k, s) (List.mem_cons_self _ _)
    have h' : ∀ e ∈ rest, e.2.Nodup := fun e he => h e (List.mem_cons_of_mem _ he)
    by_cases hkw : k = w
    · subst hkw
      rw [show hidxAddGo k q ((k, s) :: rest) = (k, setAdd q s) :: rest from by
          simp [hidxAddGo]]
      intro e he
      rcases List.mem_cons.mp he with he | he
      · subst he; exact setAdd_nodup q s hs
      · exact h' e he
    · rw [show hidxAddGo w q ((k, s) :: rest) = (k, s) :: hidxAddGo w q rest from by
          simp [hidxAddGo, hkw]]
      intro e he
      rcases List.mem_cons.mp he with he | he
      · subst he; exact hs
      · exact ih h' e he

theorem HashIndex.wf_add (h : HashIndex) (hwf : h.Wf) (w : DataValue) (q : Nat) :
    (h.add w q).Wf := by
  obtain ⟨l⟩ := h
  constructor
  · show ((hidxAddGo w q l).map Prod.fst).Nodup
    rw [keys_hidxAddGo]
    by_cases hmem : w ∈ l.map Prod.fst
    · simpa [hmem] using hwf.1
    · simp only [hmem, if_false]
      exact hwf.1.append (List.nodup_singleton w) (by simpa using hmem)
  · exact sets_hidxAddGo w q l hwf.2

theorem keys_hidxRemoveGo_sublist (w : DataValue) (q : Nat)
    (l : List (DataValue × List Nat)) :
    ((hidxRemoveGo w q l).map Prod.fst).Sublist (l.map Prod.fst) := by
  induction l with
  | nil => simp [hidxRemoveGo]
  | cons e rest ih =>
    obtain ⟨k, s⟩ := e
    by_cases hkw : k = w
    · subst hkw
      by_cases hs : s = []
      · rw [show hidxRemoveGo k q ((k, s) :: rest) = (k, s) :: rest from by
            simp [hidxRemoveGo, hs]]
      · by_cases hs' : s.erase q = []
        · rw [show hidxRemoveGo k q ((k, s) :: rest) = rest from by
              simp [hidxRemoveGo, hs, hs']]
          exact (List.Sublist.refl _).cons _
        · rw [show hidxRemoveGo k q ((k, s) :: rest) = (k, s.erase q) :: rest from by
              simp [hidxRemoveGo, hs, hs']]
          simp
    · rw [show hidxRemoveGo w q ((k, s) :: rest) = (k, s) :: hidxRemoveGo w q rest from by
          simp [hidxRemoveGo, hkw]]
      simpa using ih

theorem sets_hidxRemoveGo (w : DataValue) (q : Nat) (l : List (DataValue × List Nat))
    (h : ∀ e ∈ l, e.2.Nodup) : ∀ e ∈ hidxRemoveGo w q l, e.2.Nodup := by
  induction l with
  | nil => intro e he; simp [hidxRemoveGo] at he
  | cons e₀ rest ih =>
    obtain ⟨k, s⟩ := e₀
    have hs : s.Nodup := h (k, s) (List.mem_cons_self _ _)
    have h' : ∀ e ∈ rest, e.2.Nodup := fun e he => h e (List.mem_cons_of_mem _ he)
    by_cases hkw : k = w
    · subst hkw
      by_cases hse : s = []
      · rw [show hidxRemoveGo k q ((k, s) :: rest) = (k, s) :: rest from by
            simp [hidxRemoveGo, hse]]
        exact h
      · by_cases hs' : s.erase q = []
        · rw [show hidxRemoveGo k q ((k, s) :: rest) = rest from by
              simp [hidxRemoveGo, hse, hs']]
          exact h'
        · rw [show hidxRemoveGo k q ((k, s) :: rest) = (k, s.erase q) :: rest from by
              simp [hidxRemoveGo, hse, hs']]
          intro e he
          rcases List.mem_cons.mp he with he | he
          · subst he; exact hs.erase q
          · exact h' e he
    · rw [show hidxRemoveGo w q ((k, s) :: rest) = (k, s) :: hidxRemoveGo w q rest from by
          simp [hidxRemoveGo, hkw]]
      intro e he
      rcases List.mem_cons.mp he with he | he
      · subst he; exact hs
      · exact ih h' e he

theorem HashIndex.wf_remove (h : HashIndex) (hwf : h.Wf) (w : DataValue) (q : Nat) :
    (h.remove w q).Wf := by
  obtain ⟨l⟩ := h
  exact ⟨hwf.1.sublist (keys_hidxRemoveGo_sublist w q l), sets_hidxRemoveGo w q l hwf.2⟩

theorem HashIndex.wf_empty : (⟨[]⟩ : HashIndex).Wf := by
  constructor <;> simp

/-! Lemmas relating index contents to row scans. -/

theorem scanConsistent_nil (col : String) : scanConsistent [] col ⟨[]⟩ := by
  intro v p
  simp [lookup_nil]

theorem scanConsistent_append (rows : List Row) (row : Row) (col : String) (idx : HashIndex)
    (hC : scanConsistent rows col idx) :
    scanConsistent (rows ++ [row]) col (idx.add (rowGet row col) rows.length) := by
  intro v p
  rw [mem_lookup_add, hC v p]
  constructor
  · rintro (⟨hv, hp⟩ | ⟨r, hr, hrv⟩)
    · subst hp
      refine ⟨row, ?_, hv.symm⟩
      rw [List.getElem?_append_right (Nat.le_refl _)]
      simp
    · obtain ⟨hlt, _⟩ := List.getElem?_eq_some.mp hr
      refine ⟨r, ?_, hrv⟩
      rw [List.getElem?_append, if_pos hlt]
      exact hr
  · rintro ⟨r, hr, hrv⟩
    by_cases hlt : p < rows.length
    · right
      rw [List.getElem?_append, if_pos hlt] at hr
      exact ⟨r, hr, hrv⟩
    · left
      rw [List.getElem?_append_right (Nat.le_of_not_lt hlt)] at hr
      rcases Nat.lt_or_ge (p - rows.length) 1 with hp1 | hp1
      · have hp0 : p - rows.length = 0 := by omega
        rw [hp0] at hr
        simp only [List.getElem?_cons_zero, Option.some_inj] at hr
        subst hr
        exact ⟨hrv.symm, by omega⟩
      · rw [List.getElem?_eq_none (by simpa using hp1)] at hr
        exact absurd hr (by simp)

theorem scanConsistent_set_same (rows : List Row) (p : Nat) (r : Row) (col : String)
    (v : DataValue) (idx : HashIndex) (hwf : idx.Wf)
    (hr : rows[p]? = some r) (hC : scanConsistent rows col idx) :
    scanConsistent (rows.set p (rowSet r col v)) col
      ((idx.remove (rowGet r col) p).add v p) := by
  have hplt : p < rows.length := (List.getElem?_eq_some.mp hr).1
  intro v' q
  rw [mem_lookup_add, mem_lookup_remove idx hwf, hC v' q]
  by_cases hq : q = p
  · subst hq
    rw [List.getElem?_set_self hplt]
    constructor
    · rintro (⟨hv, _⟩ | ⟨⟨r₀, hr₀, hrv₀⟩, hne⟩)
      · exact ⟨rowSet r col v, rfl, by rw [rowGet_rowSet_self, hv]⟩
      · rw [hr] at hr₀
        exact absurd ⟨by rw [← hrv₀, Option.some_inj.mp hr₀], rfl⟩ hne
    · rintro ⟨r₀, hr₀, hrv₀⟩
      left
      refine ⟨?_, rfl⟩
      rw [← hrv₀, Option.some_inj.mp hr₀.symm, rowGet_rowSet_self]
  · rw [List.getElem?_set_ne (fun hpq => hq hpq.symm)]
    constructor
    · rintro (⟨_, hp⟩ | ⟨⟨r₀, hr₀, hrv₀⟩, _⟩)
      · exact absurd hp hq
      · exact ⟨r₀, hr₀, hrv₀⟩
    · rintro ⟨r₀, hr₀, hrv₀⟩
      right
      exact ⟨⟨r₀, hr₀, hrv₀⟩, fun hx => hq hx.2⟩

theorem scanConsistent_set_other (rows : List Row) (p : Nat) (r : Row) (c col : String)
    (v : DataValue) (idx : HashIndex) (hne : c ≠ col)
    (hr : rows[p]? = some r) (hC : scanConsistent rows c idx) :
    scanConsistent (rows.set p (rowSet r col v)) c idx := by
  have hplt : p < rows.length := (List.getElem?_eq_some.mp hr).1
  intro v' q
  rw [hC v' q]
  by_cases hq : q = p
  · subst hq
    rw [List.getElem?_set_self hplt]
    constructor
    · rintro ⟨r₀, hr₀, hrv₀⟩
      refine ⟨rowSet r col v, rfl, ?_⟩
      rw [rowGet_rowSet_ne r col c v hne, ← hrv₀, Option.some_inj.mp (hr.symm.trans hr₀)]
    · rintro ⟨r₀, hr₀, hrv₀⟩
      refine ⟨r, hr, ?_⟩
      rw [← hrv₀, ← Option.some_inj.mp hr₀, rowGet_rowSet_ne r col c v hne]
  · rw [List.getElem?_set_ne (fun hpq => hq hpq.symm)]

theorem mem_lookup_buildIndexGo (col : String) :
    ∀ (l : List Row) (start : Nat) (idx : HashIndex) (v : DataValue) (p : Nat),
      p ∈ (buildIndexGo col l start idx).lookup v ↔
        p ∈ idx.lookup v ∨ ∃ i r, l[i]? = some r ∧ p = start + i ∧ rowGet r col = v := by
  intro l
  induction l with
  | nil =>
    intro start idx v p
    simp [buildIndexGo]
  | cons r rest ih =>
    intro start idx v p
    rw [show buildIndexGo col (r :: rest) start idx
        = buildIndexGo col rest (start + 1) (idx.add (rowGet r col) start) from rfl]
    rw [ih, mem_lookup_add]
    constructor
    · rintro ((⟨hv, hp⟩ | hmem) | ⟨i, r₀, hi, hp, hrv⟩)
      · exact Or.inr ⟨0, r, by simp, by omega, hv.symm⟩
      · exact Or.inl hmem
      · exact Or.inr ⟨i + 1, r₀, by simpa using hi, by omega, hrv⟩
    · rintro (hmem | ⟨i, r₀, hi, hp, hrv⟩)
      · exact Or.inl (Or.inr hmem)
      · cases i with
        | zero =>
          simp only [List.getElem?_cons_zero, Option.some_inj] at hi
          subst hi
          exact Or.inl (Or.inl ⟨hrv.symm, by omega⟩)
        | succ j =>
          refine Or.inr ⟨j, r₀, by simpa using hi, by omega, hrv⟩

theorem scanConsistent_buildIndexGo (rows : List Row) (col : String) :
    scanConsistent rows col (buildIndexGo col rows 0 ⟨[]⟩) := by
  intro v p
  rw [mem_lookup_buildIndexGo]
  simp only [lookup_nil, List.not_mem_nil, false_or]
  constructor
  · rintro ⟨i, r, hi, hp, hrv⟩
    exact ⟨r, by simpa [hp] using hi, hrv⟩
  · rintro ⟨r, hp, hrv⟩
    exact ⟨p, r, hp, by omega, hrv⟩

theorem wf_buildIndexGo (col : String) :
    ∀ (l : List Row) (start : Nat) (idx : HashIndex), idx.Wf →
      (buildIndexGo col l start idx).Wf := by
  intro l
  induction l with
  | nil => intro start idx h; exact h
  | cons r rest ih =>
    intro start idx h
    exact ih (start + 1) _ (idx.wf_add h (rowGet r col) start)

/-! The invariant is preserved by every mutating table operation, whether
it returns normally or raises. -/

theorem Table.wf_congr (t t' : Table) (hrows : t'.rows = t.rows)
    (hidx : t'.indexes = t.indexes) (huniq : t'.unique_columns = t.unique_columns)
    (h : t.Wf) : t'.Wf := by
  unfold Table.Wf
  rw [hrows, hidx, huniq]
  exact h

theorem autoincResolve_fields (t : Table) (values row0 : Row) :
    (autoincResolve t values row0).1.rows = t.rows ∧
    (autoincResolve t values row0).1.indexes = t.indexes ∧
    (autoincResolve t values row0).1.unique_columns = t.unique_columns := by
  unfold autoincResolve
  by_cases h : t.autoincrement_pk
  · simp only [h, if_true]
    cases t.pk_column with
    | none => simp
    | some pk => cases hg : rowGet values pk <;> simp [hg]
  · simp [h]

theorem keysMap_indexUpdate (f : String × HashIndex → HashIndex)
    (l : List (String × HashIndex)) :
    (l.map (fun e => (e.1, f e))).map Prod.fst = l.map Prod.fst := by
  induction l with
  | nil => rfl
  | cons e rest ih => simp [ih]

theorem Table.insert_wf (t : Table) (values : Row) (h : t.Wf) : ((t.insert values).1).Wf := by
  have hfields := autoincResolve_fields t values
    (t.columns.map (fun c => (c.name, rowGet values c.name)))
  cases hres : autoincResolve t values (t.columns.map (fun c => (c.name, rowGet values c.name)))
    with
  | mk t1 res =>
    rw [hres] at hfields
    have hwf1 : t1.Wf := Table.wf_congr t t1 hfields.1 hfields.2.1 hfields.2.2 h
    cases res with
    | error e =>
      simp only [Table.insert, hres]
      exact hwf1
    | ok row1 =>
      cases hval : validateRowGo t1 row1 with
      | some e =>
        simp only [Table.insert, hres, hval]
        exact hwf1
      | none =>
        cases huniq : checkUniquesGo t1 row1 t1.unique_columns with
        | some e =>
          simp only [Table.insert, hres, hval, huniq]
          exact hwf1
        | none =>
          simp only [Table.insert, hres, hval, huniq]
          refine ⟨?_, ?_, ?_⟩
          · rw [keysMap_indexUpdate (fun e => e.2.add (rowGet row1 e.1) t1.rows.length)]
            exact hwf1.1
          · intro c hc
            obtain ⟨e, he, hec⟩ := hwf1.2.1 c hc
            exact ⟨(e.1, e.2.add (rowGet row1 e.1) t1.rows.length),
              List.mem_map_of_mem _ he, hec⟩
          · intro e' he'
            obtain ⟨e, he, hee⟩ := List.mem_map.mp he'
            subst hee
            obtain ⟨hewf, heC⟩ := hwf1.2.2 e he
            exact ⟨e.2.wf_add hewf _ _, scanConsistent_append t1.rows row1 e.1 e.2 heC⟩

theorem getIndex_none_forall (t : Table) (col : String)
    (h : t.getIndex col = none) : ∀ e ∈ t.indexes, e.1 ≠ col := by
  intro e he heq
  unfold Table.getIndex at h
  cases hf : t.indexes.find? (fun e => e.1 == col) with
  | none => exact List.find?_eq_none.mp hf e he (by simp [heq])
  | some x => rw [hf] at h; exact Option.noConfusion h

theorem keysMap_condUpdate (col : String) (g : HashIndex → HashIndex)
    (l : List (String × HashIndex)) :
    (l.map (fun e => if e.1 == col then (e.1, g e.2) else e)).map Prod.fst
      = l.map Prod.fst := by
  induction l with
  | nil => rfl
  | cons e rest ih =>
    by_cases hc : (e.1 == col : Bool)
    · simp only [List.map_cons, if_pos hc, ih]
    · simp only [List.map_cons, if_neg hc, ih]

theorem applyAssignments_wf : ∀ (asg : List (String × DataValue)) (rowid : Nat) (t : Table),
    t.Wf → ((applyAssignments rowid t asg).1).Wf := by
  intro asg
  induction asg with
  | nil =>
    intro rowid t h
    simpa [applyAssignments] using h
  | cons a rest ih =>
    intro rowid t h
    obtain ⟨col, v⟩ := a
    cases hrow : t.rows[rowid]? with
    | none =>
      simp only [applyAssignments, hrow]
      exact h
    | some row =>
      cases hold : rowGet? row col with
      | none =>
        simp only [applyAssignments, hrow, hold]
        exact h
      | some old =>
        simp only [applyAssignments, hrow, hold]
        have holdv : rowGet row col = old := rowGet_eq_of_rowGet? row col old hold
        have hgi1 : Table.getIndex { t with rows := t.rows.set rowid (rowSet row col v) } col
            = t.getIndex col := rfl
        rw [hgi1]
        cases hgi : t.getIndex col with
        | none =>
          dsimp only
          apply ih
          refine ⟨h.1, h.2.1, ?_⟩
          intro e he
          obtain ⟨hewf, heC⟩ := h.2.2 e he
          refine ⟨hewf, ?_⟩
          exact scanConsistent_set_other t.rows rowid row e.1 col v e.2
            (getIndex_none_forall t col hgi e he) hrow heC
        | some idx0 =>
          dsimp only
          apply ih
          refine ⟨?_, ?_, ?_⟩
          · rw [keysMap_condUpdate col (fun i => (i.remove old rowid).add v rowid) t.indexes]
            exact h.1
          · intro c hc
            obtain ⟨e, he, hec⟩ := h.2.1 c hc
            refine ⟨if e.1 == col then (e.1, (e.2.remove old rowid).add v rowid) else e,
              List.mem_map_of_mem _ he, ?_⟩
            by_cases hbc : (e.1 == col : Bool)
            · rw [if_pos hbc]
              exact hec
            · rw [if_neg hbc]
              exact hec
          · intro e' he'
            obtain ⟨e, he, hee⟩ := List.mem_map.mp he'
            obtain ⟨hewf, heC⟩ := h.2.2 e he
            by_cases hbc : (e.1 == col : Bool)
            · rw [if_pos hbc] at hee
              subst hee
              have hcoleq : e.1 = col := by simpa using hbc
              refine ⟨(e.2.remove old rowid).wf_add (e.2.wf_remove hewf old rowid) v rowid, ?_⟩
              subst hcoleq
              rw [← holdv]
              exact scanConsistent_set_same t.rows rowid row e.1 v e.2 hewf hrow heC
            · rw [if_neg hbc] at hee
              subst hee
              exact ⟨hewf, scanConsistent_set_other t.rows rowid row e.1 col v e.2
                (by simpa using hbc) hrow heC⟩

theorem updateGo_wf (asg : List (String × DataValue)) (wfn : Option (Row → Bool)) :
    ∀ (l : List Row) (rowid count : Nat) (t : Table), t.Wf →
      ((updateGo asg wfn l rowid count t).1).Wf := by
  intro l
  induction l with
  | nil =>
    intro rowid count t h
    simpa [updateGo] using h
  | cons row rest ih =>
    intro rowid count t h
    by_cases hm : matchFn wfn row = true
    · cases hval : validateAssignments t rowid row asg with
      | some e =>
        simp only [updateGo, hm, if_true, hval]
        exact h
      | none =>
        cases happ : applyAssignments rowid t asg with
        | mk t1 res =>
          have ht1 : t1.Wf := by
            have := applyAssignments_wf asg rowid t h
            rwa [happ] at this
          cases res with
          | some e =>
            simp only [updateGo, hm, if_true, hval, happ]
            exact ht1
          | none =>
            simp only [updateGo, hm, if_true, hval, happ]
            exact ih _ _ _ ht1
    · rw [Bool.not_eq_true] at hm
      simp only [updateGo, hm, Bool.false_eq_true, if_false]
      exact ih _ _ _ h

theorem Table.update_wf (t : Table) (asg : List (String × DataValue))
    (wfn : Option (Row → Bool)) (h : t.Wf) : ((t.update asg wfn).1).Wf :=
  updateGo_wf asg wfn t.rows 0 0 t h

theorem Table.delete_wf (t : Table) (wfn : Option (Row → Bool)) (h : t.Wf) :
    ((t.delete wfn).1).Wf := by
  cases wfn with
  | none =>
    simp only [Table.delete]
    refine ⟨?_, ?_, ?_⟩
    · rw [keysMap_indexUpdate (fun _ => (⟨[]⟩ : HashIndex))]
      exact h.1
    · intro c hc
      obtain ⟨e, he, hec⟩ := h.2.1 c hc
      exact ⟨(e.1, ⟨[]⟩), List.mem_map_of_mem _ he, hec⟩
    · intro e' he'
      obtain ⟨e, he, hee⟩ := List.mem_map.mp he'
      subst hee
      exact ⟨HashIndex.wf_empty, scanConsistent_nil e.1⟩
  | some f =>
    simp only [Table.delete, Table.rebuild_indexes]
    refine ⟨?_, ?_, ?_⟩
    · rw [keysMap_indexUpdate]
      exact h.1
    · intro c hc
      obtain ⟨e, he, hec⟩ := h.2.1 c hc
      exact ⟨(e.1, buildIndexGo e.1 (t.rows.filter (fun r => !f r)) 0 ⟨[]⟩),
        List.mem_map_of_mem _ he, hec⟩
    · intro e' he'
      obtain ⟨e, he, hee⟩ := List.mem_map.mp he'
      subst hee
      exact ⟨wf_buildIndexGo e.1 (t.rows.filter (fun r => !f r)) 0 ⟨[]⟩ HashIndex.wf_empty,
        scanConsistent_buildIndexGo (t.rows.filter (fun r => !f r)) e.1⟩

theorem Table.applyOp_wf (t : Table) (op : Op) (h : t.Wf) : (applyOp t op).Wf := by
  cases op with
  | ins v => exact t.insert_wf v h
  | upd a w => exact t.update_wf a w h
  | del w => exact t.delete_wf w h

/-- A table whose indexes are all freshly scan-built satisfies the
invariant; used to exhibit concrete well-formed tables. -/
theorem Table.wf_mk (nm : String) (cols : List Column) (rws : List Row) (pk : Option String)
    (uniq : List String) (icols : List String) (autoinc : Bool) (ctr : Int)
    (hnd : icols.Nodup) (huniq : ∀ c ∈ uniq, c ∈ icols) :
    Table.Wf ⟨nm, cols, rws, pk, uniq,
      icols.map (fun c => (c, buildIndexGo c rws 0 ⟨[]⟩)), autoinc, ctr⟩ := by
  refine ⟨?_, ?_, ?_⟩
  · rw [List.map_map, show (Prod.fst ∘ fun c => (c, buildIndexGo c rws 0 (⟨[]⟩ : HashIndex))) =
        id from funext (fun c => rfl), List.map_id]
    exact hnd
  · intro c hc
    exact ⟨(c, buildIndexGo c rws 0 ⟨[]⟩), List.mem_map_of_mem _ (huniq c hc), rfl⟩
  · intro e he
    obtain ⟨c, hc, hce⟩ := List.mem_map.mp he
    subst hce
    exact ⟨wf_buildIndexGo c rws 0 ⟨[]⟩ HashIndex.wf_empty, scanConsistent_buildIndexGo rws c⟩

theorem mem_strSetAdd (s : List String) (y x : String) :
    x ∈ strSetAdd s y ↔ x ∈ s ∨ x = y := by
  by_cases hy : y ∈ s
  · simp only [strSetAdd, hy, if_true]
    exact ⟨Or.inl, fun h => h.elim id (fun he => he ▸ hy)⟩
  · simp [strSetAdd, hy]

theorem ensure_index_wf_of (t : Table) (colname : String) (hrows : t.rows = [])
    (hkeys : (t.indexes.map Prod.fst).Nodup)
    (hcov : ∀ c ∈ t.unique_columns, c = colname ∨ ∃ e ∈ t.indexes, e.1 = c)
    (hent : ∀ e ∈ t.indexes, e.2.Wf ∧ scanConsistent t.rows e.1 e.2) :
    (t.ensure_index colname).Wf := by
  unfold Table.ensure_index
  cases hgi : t.getIndex colname with
  | some idx =>
    refine ⟨hkeys, ?_, hent⟩
    intro c hc
    rcases hcov c hc with hcc | hex
    · subst hcc
      unfold Table.getIndex at hgi
      cases hf : t.indexes.find? (fun e => e.1 == c) with
      | none => rw [hf] at hgi; exact Option.noConfusion hgi
      | some ef =>
        exact ⟨ef, List.mem_of_find?_eq_some hf, by simpa using List.find?_some hf⟩
    · exact hex
  | none =>
    have hnotin : colname ∉ t.indexes.map Prod.fst := by
      intro hmem
      obtain ⟨e, he, hee⟩ := List.mem_map.mp hmem
      exact getIndex_none_forall t colname hgi e he hee
    refine ⟨?_, ?_, ?_⟩
    · rw [List.map_append]
      exact hkeys.append (by simp) (by simpa using hnotin)
    · intro c hc
      rcases hcov c hc with hcc | ⟨e, he, hee⟩
      · subst hcc
        exact ⟨(c, ⟨[]⟩), List.mem_append_right _ (by simp), rfl⟩
      · exact ⟨e, List.mem_append_left _ he, hee⟩
    · intro e he
      rcases List.mem_append.mp he with he | he
      · exact hent e he
      · rw [List.mem_singleton] at he
        subst he
        rw [hrows]
        exact ⟨HashIndex.wf_empty, scanConsistent_nil colname⟩

/-! Claim theorems. -/

/-- C1: the index-consistency invariant — every indexed column's HashIndex
maps each value to exactly the positions whose row holds that value, and
every column in `unique_columns` has exactly one HashIndex — holds for a
freshly constructed table, is established by `define_primary_key` and
`add_unique` on a still-empty table, and is preserved by any sequence of
insert/update/delete calls, including calls that raise (whose post-states
`applyOps` keeps). -/
theorem index_consistency_invariant :
    (∀ (name : String) (cols : List Column),
      (⟨name, cols, [], none, [], [], false, 0⟩ : Table).Wf) ∧
    (∀ (t : Table) (colname : String) (auto : Bool), t.rows = [] → t.Wf →
      ((t.define_primary_key colname auto).1).Wf) ∧
    (∀ (t : Table) (colname : String), t.rows = [] → t.Wf →
      ((t.add_unique colname).1).Wf) ∧
    (∀ (t : Table), t.Wf → ∀ (ops : List Op), (applyOps t ops).Wf) := by
  refine ⟨?_, ?_, ?_, ?_⟩
  · intro name cols
    exact ⟨by simp, by simp, by simp⟩
  · intro t colname auto hrows h
    unfold Table.define_primary_key
    by_cases h1 : (t.getCol colname).isNone
    · simp only [h1, if_true]
      exact h
    · simp only [h1, Bool.false_eq_true, if_false]
      by_cases h2 : t.pk_column.isSome
      · simp only [h2, if_true]
        exact h
      · simp only [h2, Bool.false_eq_true, if_false]
        have hwf2 := ensure_index_wf_of
          { t with pk_column := some colname,
                   unique_columns := strSetAdd t.unique_columns colname }
          colname hrows h.1
          (by
            intro c hc
            rcases (mem_strSetAdd t.unique_columns colname c).mp hc with hc' | hc'
            · exact Or.inr (h.2.1 c hc')
            · exact Or.inl hc')
          h.2.2
        by_cases h3 : (auto && (match t.getCol colname with
            | some c => c.dtype == Dtype.int
            | none => false) : Bool)
        · simp only [h3, if_true]
          exact Table.wf_congr _ _ rfl rfl rfl hwf2
        · simp only [h3, Bool.false_eq_true, if_false]
          exact hwf2
  · intro t colname hrows h
    unfold Table.add_unique
    by_cases h1 : (t.getCol colname).isNone
    · simp only [h1, if_true]
      exact h
    · simp only [h1, Bool.false_eq_true, if_false]
      exact ensure_index_wf_of
        { t with unique_columns := strSetAdd t.unique_columns colname }
        colname hrows h.1
        (by
          intro c hc
          rcases (mem_strSetAdd t.unique_columns colname c).mp hc with hc' | hc'
          · exact Or.inr (h.2.1 c hc')
          · exact Or.inl hc')
        h.2.2
  · intro t h ops
    induction ops generalizing t with
    | nil => simpa [applyOps] using h
    | cons op rest ih =>
      rw [show applyOps t (op :: rest) = applyOps (applyOp t op) rest from rfl]
      exact ih _ (t.applyOp_wf op h)

def tblC1rows : List Row := [[("id", DataValue.int 1)]]

def tblC1 : Table := ⟨"t", [⟨"id", .int, true⟩], tblC1rows, some "id", ["id"],
  ["id"].map (fun c => (c, buildIndexGo c tblC1rows 0 ⟨[]⟩)), false, 0⟩

def opsC1 : List Op :=
  [.ins [("id", .int 2)],
   .upd [("id", .int 3)] (some (fun r => rowGet r "id" == DataValue.int 2)),
   .del (some (fun r => rowGet r "id" == DataValue.int 3)),
   .ins [("id", .int 2)],
   .del none]

theorem index_consistency_invariant_witness : tblC1.Wf ∧ (applyOps tblC1 opsC1).Wf := by
  have hwf : tblC1.Wf :=
    Table.wf_mk "t" [⟨"id", .int, true⟩] tblC1rows (some "id") ["id"] ["id"] false 0
      (by decide) (by intro c hc; exact hc)
  exact ⟨hwf, index_consistency_invariant.2.2.2 tblC1 hwf opsC1⟩

theorem autoincResolve_state (t : Table) (values row0 : Row) :
    (autoincResolve t values row0).1
      = { t with pk_counter := (autoincResolve t values row0).1.pk_counter } := by
  obtain ⟨nm, cols, rws, pkc, uqc, idxs, ai, ctr⟩ := t
  unfold autoincResolve
  cases ai with
  | false => simp
  | true =>
    cases pkc with
    | none => simp
    | some pk => cases hg : rowGet values pk <;> simp [hg]

def tblC2 : Table := ⟨"users", [⟨"id", .int, true⟩, ⟨"email", .str, false⟩], [],
  some "id", ["id"], [("id", ⟨[]⟩)], true, 0⟩

/-- C2 (counterexample): on an auto-increment table with a NOT NULL email
column, an insert supplying no values raises the not-null violation, yet
the auto-increment counter — advanced before validation — changes from 0
to 1, so the table state is not exactly as before the call. -/
theorem insert_counter_moves_on_error :
    (tblC2.insert []).2 = .error "NOT NULL column email missing value" ∧
    tblC2.pk_counter = 0 ∧ (tblC2.insert []).1.pk_counter = 1 := by
  refine ⟨rfl, rfl, rfl⟩

/-- C2 (amended): if insert raises (not-null, type-mismatch, unique/PK, or
the counter-resolution TypeError), the rows, every index, and all other
table state are exactly as before the call, except that the
auto-increment counter may already have advanced. -/
theorem insert_error_state (t : Table) (values : Row) (msg : String)
    (h : (t.insert values).2 = .error msg) :
    (t.insert values).1.rows = t.rows ∧
    (t.insert values).1.indexes = t.indexes ∧
    (t.insert values).1.columns = t.columns ∧
    (t.insert values).1.pk_column = t.pk_column ∧
    (t.insert values).1.unique_columns = t.unique_columns ∧
    (t.insert values).1.autoincrement_pk = t.autoincrement_pk := by
  cases hres : autoincResolve t values (t.columns.map (fun c => (c.name, rowGet values c.name)))
    with
  | mk t1 res =>
    have hstate := autoincResolve_state t values
      (t.columns.map (fun c => (c.name, rowGet values c.name)))
    rw [hres] at hstate
    dsimp only at hstate
    have hfields : t1.rows = t.rows ∧ t1.indexes = t.indexes ∧ t1.columns = t.columns ∧
        t1.pk_column = t.pk_column ∧ t1.unique_columns = t.unique_columns ∧
        t1.autoincrement_pk = t.autoincrement_pk := by
      rw [hstate]
      exact ⟨rfl, rfl, rfl, rfl, rfl, rfl⟩
    cases res with
    | error e =>
      simp only [Table.insert, hres]
      exact hfields
    | ok row1 =>
      cases hval : validateRowGo t1 row1 with
      | some e =>
        simp only [Table.insert, hres, hval]
        exact hfields
      | none =>
        cases huniq : checkUniquesGo t1 row1 t1.unique_columns with
        | some e =>
          simp only [Table.insert, hres, hval, huniq]
          exact hfields
        | none =>
          exfalso
          simp only [Table.insert, hres, hval, huniq] at h
          exact Except.noConfusion h

theorem insert_error_state_witness :
    (tblC2.insert []).1.rows = tblC2.rows ∧
    (tblC2.insert []).1.indexes = tblC2.indexes ∧
    (tblC2.insert []).1.columns = tblC2.columns ∧
    (tblC2.insert []).1.pk_column = tblC2.pk_column ∧
    (tblC2.insert []).1.unique_columns = tblC2.unique_columns ∧
    (tblC2.insert []).1.autoincrement_pk = tblC2.autoincrement_pk :=
  insert_error_state tblC2 [] "NOT NULL column email missing value" rfl

theorem insert_pk_counter (t t1 : Table) (values row1 : Row)
    (hres : autoincResolve t values (t.columns.map (fun c => (c.name, rowGet values c.name)))
      = (t1, .ok row1)) :
    (t.insert values).1.pk_counter = t1.pk_counter ∧
    (∀ n, (t.insert values).2 = Except.ok n →
      n = t1.rows.length ∧ (t.insert values).1.rows = t1.rows ++ [row1]) := by
  cases hval : validateRowGo t1 row1 with
  | some e =>
    constructor
    · simp only [Table.insert, hres, hval]
    · intro n hn
      simp only [Table.insert, hres, hval] at hn
      exact absurd hn (by simp)
  | none =>
    cases huniq : checkUniquesGo t1 row1 t1.unique_columns with
    | some e =>
      constructor
      · simp only [Table.insert, hres, hval, huniq]
      · intro n hn
        simp only [Table.insert, hres, hval, huniq] at hn
        exact absurd hn (by simp)
    | none =>
      constructor
      · simp only [Table.insert, hres, hval, huniq]
      · intro n hn
        simp only [Table.insert, hres, hval, huniq] at hn ⊢
        exact ⟨(Except.ok.inj hn.symm), trivial⟩

def tblC3 : Table := ⟨"t", [⟨"id", .int, true⟩], [], some "id", ["id"], [("id", ⟨[]⟩)], true, 0⟩

/-- C3: with auto-increment enabled, an insert supplying no value (null)
for the pk column advances the counter to `counter+1` and, when it
returns normally, the appended row carries pk value `counter+1`; an
insert supplying an explicit integer sets the counter to
`max(counter, supplied)`.  On the empty table `tblC3` the first two
value-less inserts assign keys 1 and 2, and inserting `{id:10}` followed
by a value-less insert assigns 11. -/
theorem autoincrement_resolution :
    (∀ (t : Table) (values : Row) (pk : String),
      t.autoincrement_pk = true → t.pk_column = some pk →
      rowGet values pk = DataValue.null →
        (t.insert values).1.pk_counter = t.pk_counter + 1 ∧
        ∀ n, (t.insert values).2 = Except.ok n →
          ∃ r, ((t.insert values).1.rows)[n]? = some r ∧
            rowGet r pk = DataValue.int (t.pk_counter + 1)) ∧
    (∀ (t : Table) (values : Row) (pk : String) (m : Int),
      t.autoincrement_pk = true → t.pk_column = some pk →
      rowGet values pk = DataValue.int m →
        (t.insert values).1.pk_counter = max t.pk_counter m) ∧
    ((tblC3.insert []).2 = Except.ok 0 ∧
     (tblC3.insert []).1.rows = [[("id", DataValue.int 1)]] ∧
     ((tblC3.insert []).1.insert []).2 = Except.ok 1 ∧
     ((tblC3.insert []).1.insert []).1.rows
       = [[("id", DataValue.int 1)], [("id", DataValue.int 2)]]) ∧
    ((tblC3.insert [("id", DataValue.int 10)]).2 = Except.ok 0 ∧
     (tblC3.insert [("id", DataValue.int 10)]).1.pk_counter = 10 ∧
     ((tblC3.insert [("id", DataValue.int 10)]).1.insert []).1.rows
       = [[("id", DataValue.int 10)], [("id", DataValue.int 11)]]) := by
  refine ⟨?_, ?_, ⟨rfl, rfl, rfl, rfl⟩, ⟨rfl, rfl, rfl⟩⟩
  · intro t values pk hauto hpk hv
    have hres : autoincResolve t values (t.columns.map (fun c => (c.name, rowGet values c.name)))
        = ({ t with pk_counter := t.pk_counter + 1 },
           .ok (rowSet (t.columns.map (fun c => (c.name, rowGet values c.name))) pk
             (DataValue.int (t.pk_counter + 1)))) := by
      unfold autoincResolve
      rw [hauto, hpk]
      simp [hv]
    obtain ⟨hcnt, hrows⟩ := insert_pk_counter t _ values _ hres
    refine ⟨hcnt, ?_⟩
    intro n hn
    obtain ⟨hn', hrows'⟩ := hrows n hn
    refine ⟨rowSet (t.columns.map (fun c => (c.name, rowGet values c.name))) pk
      (DataValue.int (t.pk_counter + 1)), ?_, rowGet_rowSet_self _ _ _⟩
    rw [hrows', hn']
    rw [List.getElem?_append_right (Nat.le_refl _)]
    simp
  · intro t values pk m hauto hpk hv
    have hres : autoincResolve t values (t.columns.map (fun c => (c.name, rowGet values c.name)))
        = ({ t with pk_counter := max t.pk_counter m },
           .ok (t.columns.map (fun c => (c.name, rowGet values c.name)))) := by
      unfold autoincResolve
      rw [hauto, hpk]
      simp [hv]
    exact (insert_pk_counter t _ values _ hres).1

theorem autoincrement_resolution_witness :
    (tblC3.insert []).1.pk_counter = tblC3.pk_counter + 1 ∧
    (tblC3.insert [("id", DataValue.int 4)]).1.pk_counter = max tblC3.pk_counter 4 := by
  constructor
  · exact (autoincrement_resolution.1 tblC3 [] "id" rfl rfl rfl).1
  · exact autoincrement_resolution.2.1 tblC3 [("id", DataValue.int 4)] "id" 4 rfl rfl rfl

/-! Lemmas about the update loop, for the uniqueness-check and
no-validation claims. -/

theorem set_eq_self_of_getElem? (l : List Row) (n : Nat) (a : Row) (h : l[n]? = some a) :
    l.set n a = l := by
  apply List.ext_getElem?
  intro i
  by_cases hi : i = n
  · subst hi
    rw [List.getElem?_set_self (List.getElem?_eq_some.mp h).1, h]
  · rw [List.getElem?_set_ne (fun he => hi he.symm)]

theorem drop_succ_set (l : List Row) (n : Nat) (a : Row) :
    (l.set n a).drop (n + 1) = l.drop (n + 1) := by
  apply List.ext_getElem?
  intro i
  rw [List.getElem?_drop, List.getElem?_drop, List.getElem?_set_ne (by omega)]

theorem applyAssignments_ok : ∀ (asg : List (String × DataValue)) (t : Table) (rowid : Nat)
    (row : Row), t.rows[rowid]? = some row →
    (∀ a ∈ asg, (rowGet? row a.1).isSome) →
    (applyAssignments rowid t asg).2 = none ∧
    (applyAssignments rowid t asg).1.rows
      = t.rows.set rowid (asg.foldl (fun r a => rowSet r a.1 a.2) row) ∧
    (applyAssignments rowid t asg).1.unique_columns = t.unique_columns := by
  intro asg
  induction asg with
  | nil =>
    intro t rowid row hrow hkeys
    exact ⟨rfl, (set_eq_self_of_getElem? t.rows rowid row hrow).symm, rfl⟩
  | cons a rest ih =>
    intro t rowid row hrow hkeys
    obtain ⟨col, v⟩ := a
    have hkey : (rowGet? row col).isSome := hkeys (col, v) (List.mem_cons_self _ _)
    cases hold : rowGet? row col with
    | none => rw [hold] at hkey; exact absurd hkey (by simp)
    | some old =>
      simp only [applyAssignments, hrow, hold]
      have hgi1 : Table.getIndex { t with rows := t.rows.set rowid (rowSet row col v) } col
          = t.getIndex col := rfl
      rw [hgi1]
      have hplt : rowid < t.rows.length := (List.getElem?_eq_some.mp hrow).1
      have hrow' : (t.rows.set rowid (rowSet row col v))[rowid]? = some (rowSet row col v) :=
        List.getElem?_set_self (by simpa using hplt)
      have hkeys' : ∀ a ∈ rest, (rowGet? (rowSet row col v) a.1).isSome := fun a ha =>
        rowGet?_rowSet_isSome row col a.1 v (hkeys a (List.mem_cons_of_mem _ ha))
      cases hgi : t.getIndex col with
      | none =>
        dsimp only
        obtain ⟨h1, h2, h3⟩ := ih { t with rows := t.rows.set rowid (rowSet row col v) }
          rowid (rowSet row col v) hrow' hkeys'
        refine ⟨h1, ?_, h3⟩
        rw [h2]
        simp only [List.foldl_cons, List.set_set]
      | some idx0 =>
        dsimp only
        obtain ⟨h1, h2, h3⟩ := ih
          { t with rows := t.rows.set rowid (rowSet row col v),
                   indexes := t.indexes.map (fun e =>
                     if e.1 == col then (e.1, (e.2.remove old rowid).add v rowid) else e) }
          rowid (rowSet row col v) hrow' hkeys'
        refine ⟨h1, ?_, h3⟩
        rw [h2]
        simp only [List.foldl_cons, List.set_set]

theorem updateGo_skip_front (asg : List (String × DataValue)) (wfn : Option (Row → Bool)) :
    ∀ (l₁ l₂ : List Row) (rowid count : Nat) (t : Table),
      (∀ r ∈ l₁, matchFn wfn r = false) →
      updateGo asg wfn (l₁ ++ l₂) rowid count t
        = updateGo asg wfn l₂ (rowid + l₁.length) count t := by
  intro l₁
  induction l₁ with
  | nil =>
    intro l₂ rowid count t h
    simp
  | cons row rest ih =>
    intro l₂ rowid count t h
    have hm : matchFn wfn row = false := h row (List.mem_cons_self _ _)
    simp only [List.cons_append, updateGo, hm, Bool.false_eq_true, if_false, List.append_eq]
    rw [ih l₂ (rowid + 1) count t (fun r hr => h r (List.mem_cons_of_mem _ hr))]
    have harith : rowid + 1 + rest.length = rowid + (row :: rest).length := by
      simp
      omega
    rw [harith]

theorem drop_succ_of_drop (l : List Row) (n : Nat) (x : Row) (xs : List Row)
    (h : l.drop n = x :: xs) : l.drop (n + 1) = xs := by
  have h2 : (l.drop n).drop 1 = xs := by rw [h]; simp
  rw [List.drop_drop] at h2
  simpa [Nat.add_comm] using h2

theorem getElem?_of_drop_cons (l : List Row) (n : Nat) (x : Row) (xs : List Row)
    (h : l.drop n = x :: xs) : l[n]? = some x := by
  have : (l.drop n)[0]? = some x := by rw [h]; simp
  rwa [List.getElem?_drop, Nat.add_zero] at this

theorem updateGo_keep (c : String) (v : DataValue) (wfn : Option (Row → Bool)) :
    ∀ (l : List Row) (rowid count : Nat) (t : Table),
      l = t.rows.drop rowid →
      (∀ r ∈ l, matchFn wfn r = true → rowGet? r c = some v) →
      (updateGo [(c, v)] wfn l rowid count t).2
        = Except.ok (count + l.countP (matchFn wfn)) := by
  intro l
  induction l with
  | nil =>
    intro rowid count t hdrop hkeep
    simp [updateGo]
  | cons row rest ih =>
    intro rowid count t hdrop hkeep
    have hrow : t.rows[rowid]? = some row := getElem?_of_drop_cons t.rows rowid row rest
      hdrop.symm
    have hrest : t.rows.drop (rowid + 1) = rest := drop_succ_of_drop t.rows rowid row rest
      hdrop.symm
    by_cases hm : matchFn wfn row = true
    · have hcur : rowGet? row c = some v := hkeep row (List.mem_cons_self _ _) hm
      have hcurv : rowGet row c = v := rowGet_eq_of_rowGet? row c v hcur
      have hval : validateAssignments t rowid row [(c, v)] = none := by
        simp only [validateAssignments]
        rw [if_neg (by rw [hcurv]; exact fun hx => hx.2 rfl)]
      have happ := applyAssignments_ok [(c, v)] t rowid row hrow
        (by
          intro a ha
          rw [List.mem_singleton] at ha
          subst ha
          show (rowGet? row c).isSome = true
          rw [hcur]
          rfl)
      cases happE : applyAssignments rowid t [(c, v)] with
      | mk t1 res =>
        rw [happE] at happ
        dsimp only at happ
        obtain ⟨hres, hrows1, huniq1⟩ := happ
        subst hres
        simp only [updateGo, hm, if_true, hval, happE]
        rw [ih (rowid + 1) (count + 1) t1
          (by rw [hrows1, drop_succ_set, hrest])
          (fun r hr hmr => hkeep r (List.mem_cons_of_mem _ hr) hmr)]
        rw [List.countP_cons]
        simp only [hm, if_true]
        congr 1
        omega
    · rw [Bool.not_eq_true] at hm
      simp only [updateGo, hm, Bool.false_eq_true, if_false]
      rw [ih (rowid + 1) count t hrest.symm
        (fun r hr hmr => hkeep r (List.mem_cons_of_mem _ hr) hmr)]
      rw [List.countP_cons]
      simp [hm]

/-- C4: a unique-column assignment is validated against the index with the
row's own position excluded, and the validation is skipped entirely when
the assigned value equals the row's current value — so an update that
gives every matched row the unique value it already holds succeeds with
the matched count, while an update that would assign the first matched
row a unique value held by a different row raises the unique/PK
violation. -/
theorem update_unique_check_excludes_self :
    (∀ (t : Table) (c : String) (v : DataValue) (wfn : Option (Row → Bool)),
      (∀ r ∈ t.rows, matchFn wfn r = true → rowGet? r c = some v) →
      (t.update [(c, v)] wfn).2 = Except.ok (t.rows.countP (matchFn wfn))) ∧
    (∀ (t : Table) (c : String) (v : DataValue) (wfn : Option (Row → Bool)) (p q : Nat)
      (r r' : Row),
      t.Wf → t.rows[p]? = some r → matchFn wfn r = true →
      (∀ r₀ ∈ t.rows.take p, matchFn wfn r₀ = false) →
      c ∈ t.unique_columns → v ≠ rowGet r c →
      t.rows[q]? = some r' → rowGet r' c = v → q ≠ p →
      (t.update [(c, v)] wfn).2 = Except.error (uniqueMsg c v)) := by
  constructor
  · intro t c v wfn hkeep
    have := updateGo_keep c v wfn t.rows 0 0 t (by simp) hkeep
    simpa using this
  · intro t c v wfn p q r r' hwf hp hm hpre hcu hne hq hr'v hqp
    have hplt : p < t.rows.length := (List.getElem?_eq_some.mp hp).1
    have hdropP : t.rows.drop p = r :: t.rows.drop (p + 1) := by
      rw [List.drop_eq_getElem_cons hplt]
      have : t.rows[p] = r := (List.getElem?_eq_some.mp hp).2
      rw [this]
    obtain ⟨e0, he0, he0c⟩ := hwf.2.1 c hcu
    have hfindS : (t.indexes.find? (fun e => e.1 == c)).isSome := by
      rw [List.find?_isSome]
      exact ⟨e0, he0, by simp [he0c]⟩
    obtain ⟨ef, hfind⟩ := Option.isSome_iff_exists.mp hfindS
    have hefmem : ef ∈ t.indexes := List.mem_of_find?_eq_some hfind
    have hefc : ef.1 = c := by
      have := List.find?_some hfind
      simpa using this
    have hgi : t.getIndex c = some ef.2 := by
      unfold Table.getIndex
      rw [hfind]
      rfl
    obtain ⟨hefwf, hefC⟩ := hwf.2.2 ef hefmem
    have hqmem : q ∈ ef.2.lookup v := by
      rw [hefc] at hefC
      exact (hefC v q).mpr ⟨r', hq, hr'v⟩
    have hnodup : (ef.2.lookup v).Nodup := lookup_nodup ef.2 hefwf v
    have hqerase : q ∈ (ef.2.lookup v).erase p :=
      (List.Nodup.mem_erase_iff hnodup).mpr ⟨hqp, hqmem⟩
    have hcheck : t.check_unique_violation c v (some p) = some (uniqueMsg c v) := by
      unfold Table.check_unique_violation
      rw [if_pos hcu, hgi]
      dsimp only
      rw [if_neg (by
        rw [List.isEmpty_iff]
        exact List.ne_nil_of_mem hqerase)]
    have hval : validateAssignments t p r [(c, v)] = some (uniqueMsg c v) := by
      simp only [validateAssignments]
      rw [if_pos ⟨hcu, hne⟩, hcheck]
    have hsplit : t.rows = t.rows.take p ++ (r :: t.rows.drop (p + 1)) := by
      conv_lhs => rw [← List.take_append_drop p t.rows]
      rw [hdropP]
    show (updateGo [(c, v)] wfn t.rows 0 0 t).2 = _
    rw [hsplit, updateGo_skip_front [(c, v)] wfn (t.rows.take p) _ 0 0 t hpre]
    have hlen : (t.rows.take p).length = p := by
      rw [List.length_take]
      omega
    rw [hlen, Nat.zero_add]
    simp only [updateGo, hm, if_true, hval]

def tblC4rows : List Row := [[("u", DataValue.int 1)], [("u", DataValue.int 2)]]

def tblC4 : Table := ⟨"t4", [⟨"u", .int, true⟩], tblC4rows, none, ["u"],
  ["u"].map (fun c => (c, buildIndexGo c tblC4rows 0 ⟨[]⟩)), false, 0⟩

theorem update_unique_check_excludes_self_witness :
    (tblC4.update [("u", DataValue.int 1)]
        (some (fun r => rowGet r "u" == DataValue.int 1))).2
      = Except.ok (tblC4.rows.countP
          (matchFn (some (fun r => rowGet r "u" == DataValue.int 1)))) ∧
    (tblC4.update [("u", DataValue.int 2)]
        (some (fun r => rowGet r "u" == DataValue.int 1))).2
      = Except.error (uniqueMsg "u" (DataValue.int 2)) := by
  have hwf : tblC4.Wf :=
    Table.wf_mk "t4" [⟨"u", .int, true⟩] tblC4rows none ["u"] ["u"] false 0
      (by decide) (by intro c hc; exact hc)
  constructor
  · exact update_unique_check_excludes_self.1 tblC4 "u" (DataValue.int 1)
      (some (fun r => rowGet r "u" == DataValue.int 1)) (by decide)
  · exact update_unique_check_excludes_self.2 tblC4 "u" (DataValue.int 2)
      (some (fun r => rowGet r "u" == DataValue.int 1)) 0 1
      [("u", DataValue.int 1)] [("u", DataValue.int 2)] hwf rfl (by decide)
      (by decide) (by decide) (by decide) rfl rfl (by decide)

theorem foldl_rowSet_isSome (k : String) :
    ∀ (asg : List (String × DataValue)) (r : Row), (rowGet? r k).isSome →
      (rowGet? (asg.foldl (fun r a => rowSet r a.1 a.2) r) k).isSome := by
  intro asg
  induction asg with
  | nil => intro r h; exact h
  | cons a rest ih =>
    intro r h
    rw [List.foldl_cons]
    exact ih _ (rowGet?_rowSet_isSome r a.1 k a.2 h)

theorem validateAssignments_nonunique (t : Table) (rowid : Nat) (row : Row) :
    ∀ (asg : List (String × DataValue)), (∀ a ∈ asg, a.1 ∉ t.unique_columns) →
      validateAssignments t rowid row asg = none := by
  intro asg
  induction asg with
  | nil => intro _; rfl
  | cons a rest ih =>
    intro h
    obtain ⟨col, v⟩ := a
    simp only [validateAssignments]
    rw [if_neg (fun hx => h (col, v) (List.mem_cons_self _ _) hx.1)]
    exact ih (fun a ha => h a (List.mem_cons_of_mem _ ha))

theorem updateGo_nonunique (asg : List (String × DataValue)) (wfn : Option (Row → Bool)) :
    ∀ (l : List Row) (rowid count : Nat) (t : Table),
      l = t.rows.drop rowid →
      (∀ a ∈ asg, a.1 ∉ t.unique_columns) →
      (∀ r ∈ t.rows, ∀ a ∈ asg, (rowGet? r a.1).isSome) →
      ∃ n, (updateGo asg wfn l rowid count t).2 = Except.ok n := by
  intro l
  induction l with
  | nil =>
    intro rowid count t _ _ _
    exact ⟨count, rfl⟩
  | cons row rest ih =>
    intro rowid count t hdrop hnu hkeys
    have hrow : t.rows[rowid]? = some row := getElem?_of_drop_cons t.rows rowid row rest
      hdrop.symm
    have hrest : t.rows.drop (rowid + 1) = rest := drop_succ_of_drop t.rows rowid row rest
      hdrop.symm
    have hrowmem : row ∈ t.rows := by
      obtain ⟨hlt, heq⟩ := List.getElem?_eq_some.mp hrow
      exact heq ▸ List.getElem_mem hlt
    by_cases hm : matchFn wfn row = true
    · have hval := validateAssignments_nonunique t rowid row asg hnu
      have happ := applyAssignments_ok asg t rowid row hrow
        (fun a ha => hkeys row hrowmem a ha)
      cases happE : applyAssignments rowid t asg with
      | mk t1 res =>
        rw [happE] at happ
        dsimp only at happ
        obtain ⟨hres, hrows1, huniq1⟩ := happ
        subst hres
        simp only [updateGo, hm, if_true, hval, happE]
        apply ih (rowid + 1) (count + 1) t1
        · rw [hrows1, drop_succ_set, hrest]
        · rw [huniq1]
          exact hnu
        · intro r hr a ha
          rw [hrows1] at hr
          rcases List.mem_or_eq_of_mem_set hr with hr' | hr'
          · exact hkeys r hr' a ha
          · subst hr'
            exact foldl_rowSet_isSome a.1 asg row (hkeys row hrowmem a ha)
    · rw [Bool.not_eq_true] at hm
      simp only [updateGo, hm, Bool.false_eq_true, if_false]
      exact ih (rowid + 1) count t hrest.symm hnu hkeys

def tblC10 : Table := ⟨"n", [⟨"age", .int, false⟩], [[("age", DataValue.int 5)]],
  none, [], [], false, 0⟩

/-- C10: update performs no not-null and no type validation — whenever no
assigned column carries a unique constraint (and the assigned columns are
declared, so they are present in every row), update returns a count and
never raises, storing null into a `nullable=false` column or a boolean
into an integer column; insert rejects those same values. -/
theorem update_no_type_validation :
    (∀ (t : Table) (asg : List (String × DataValue)) (wfn : Option (Row → Bool)),
      (∀ a ∈ asg, a.1 ∉ t.unique_columns) →
      (∀ r ∈ t.rows, ∀ a ∈ asg, (rowGet? r a.1).isSome) →
      ∃ n, (t.update asg wfn).2 = Except.ok n) ∧
    ((tblC10.update [("age", DataValue.null)] none).2 = Except.ok 1 ∧
     (tblC10.update [("age", DataValue.null)] none).1.rows = [[("age", DataValue.null)]] ∧
     (tblC10.insert [("age", DataValue.null)]).2
       = Except.error "NOT NULL column age missing value" ∧
     (tblC10.update [("age", DataValue.bool true)] none).2 = Except.ok 1 ∧
     (tblC10.update [("age", DataValue.bool true)] none).1.rows
       = [[("age", DataValue.bool true)]] ∧
     (tblC10.insert [("age", DataValue.bool true)]).2
       = Except.error "Type mismatch for age: expected int") := by
  constructor
  · intro t asg wfn hnu hkeys
    exact updateGo_nonunique asg wfn t.rows 0 0 t (by simp) hnu hkeys
  · exact ⟨rfl, rfl, rfl, rfl, rfl, rfl⟩

theorem update_no_type_validation_witness :
    ∃ n, (tblC10.update [("age", DataValue.str "x")] none).2 = Except.ok n :=
  update_no_type_validation.1 tblC10 [("age", DataValue.str "x")] none
    (by decide) (by decide)

/-- C6: delete with no predicate returns the prior row count, removes all
rows, clears every index (keeping the index keys) and resets the
auto-increment counter to 0; delete with a predicate returns the removed
count, keeps exactly the non-matching rows in order, leaves the counter
untouched, and rebuilds every index to match a scan of the new row
sequence. -/
theorem delete_contract (t : Table) (f : Row → Bool) :
    ((t.delete none).2 = Except.ok t.rows.length ∧
     (t.delete none).1.rows = [] ∧
     (t.delete none).1.pk_counter = 0 ∧
     ((t.delete none).1.indexes.map Prod.fst) = t.indexes.map Prod.fst ∧
     (∀ e ∈ (t.delete none).1.indexes, ∀ v, e.2.lookup v = [])) ∧
    ((t.delete (some f)).2 = Except.ok (t.rows.countP (fun r => f r)) ∧
     (t.delete (some f)).1.rows = t.rows.filter (fun r => !f r) ∧
     (t.delete (some f)).1.pk_counter = t.pk_counter ∧
     ((t.delete (some f)).1.indexes.map Prod.fst) = t.indexes.map Prod.fst ∧
     (∀ e ∈ (t.delete (some f)).1.indexes,
        scanConsistent (t.rows.filter (fun r => !f r)) e.1 e.2)) := by
  constructor
  · refine ⟨rfl, rfl, rfl, ?_, ?_⟩
    · exact keysMap_indexUpdate (fun _ => (⟨[]⟩ : HashIndex)) t.indexes
    · intro e he v
      obtain ⟨e0, he0, hee⟩ := List.mem_map.mp he
      subst hee
      exact lookup_nil v
  · refine ⟨rfl, rfl, rfl, ?_, ?_⟩
    · exact keysMap_indexUpdate
        (fun e => buildIndexGo e.1 (t.rows.filter (fun r => !f r)) 0 ⟨[]⟩) t.indexes
    · intro e he
      obtain ⟨e0, he0, hee⟩ := List.mem_map.mp he
      subst hee
      exact scanConsistent_buildIndexGo (t.rows.filter (fun r => !f r)) e0.1

def tblC5rows : List Row := [[("age", DataValue.int 10)], [("age", DataValue.int 20)],
  [("age", DataValue.int 30)], [("age", DataValue.int 40)], [("age", DataValue.int 50)]]

def tblC5 : Table := ⟨"a", [⟨"age", .int, true⟩], tblC5rows, none, [], [], false, 0⟩

def tblC5b : Table := ⟨"p", [⟨"name", .str, true⟩, ⟨"age", .int, true⟩],
  [[("name", DataValue.str "A"), ("age", DataValue.int 10)],
   [("name", DataValue.str "B"), ("age", DataValue.int 30)]], none, [], [], false, 0⟩

/-- C5: select applies filter, then projection, then the stable sort on
the order-by column, then the limit: on the 5-row ages table, filtering
`age>25`, ordering by age descending and limiting to 2 returns exactly
`[{age:50},{age:40}]`; and the filter runs against the stored rows before
projection, since filtering on `age` while projecting only `name`
still selects the matching row. -/
theorem select_pipeline_order :
    tblC5.select (some ["age"])
        (some (fun r => dvGtB (rowGet r "age") (DataValue.int 25)))
        (some ("age", true)) (some 2)
      = [[("age", DataValue.int 50)], [("age", DataValue.int 40)]] ∧
    tblC5b.select (some ["name"])
        (some (fun r => dvGtB (rowGet r "age") (DataValue.int 25)))
        none none
      = [[("name", DataValue.str "B")]] :=
  ⟨rfl, rfl⟩

def usersRows : List Row := [[("id", DataValue.int 1), ("name", DataValue.str "A")]]

def ordersRows : List Row := [[("oid", DataValue.int 1), ("user_id", DataValue.int 1)],
  [("oid", DataValue.int 2), ("user_id", DataValue.int 2)]]

/-- C7: the two-table join branch performs the nested-loop equality join
in left-row-major order with `table.column`-qualified keys: on
`users=[{id:1,name:"A"}]` and `orders=[{oid:1,user_id:1},{oid:2,user_id:2}]`
joined on `users.id = orders.user_id` it emits exactly one combined row;
and the residual filter is applied to the left row alone — a filter
rejecting the only left row empties the result. -/
theorem join_two_tables :
    execJoin "users" usersRows "orders" ordersRows "id" "user_id" none
      = [[("users.id", DataValue.int 1), ("users.name", DataValue.str "A"),
          ("orders.oid", DataValue.int 1), ("orders.user_id", DataValue.int 1)]] ∧
    execJoin "users" usersRows "orders" ordersRows "id" "user_id"
        (some (fun r => rowGet r "name" == DataValue.str "Z"))
      = [] :=
  ⟨rfl, rfl⟩

/-- C8 (counterexample): applied to a bare column reference, the
literal-conversion helper returns Python `None` — the very same value as
the null data value, not a distinct "no literal" marker. -/
theorem parse_literal_non_literal_is_null :
    parse_literal (Expr.col "user_id" "") = DataValue.null ∧
    ¬(parse_literal (Expr.col "user_id" "") ≠ DataValue.null) :=
  ⟨rfl, fun h => h rfl⟩

/-- C8 (amended): a parsed literal maps to an integer when its lexical
class is `is_int`, to a floating-point value when it is a non-integer
number, and to text otherwise; a non-literal node maps to Python `None`,
which coincides with the null data value (callers distinguish literals by
testing `is not None`). -/
theorem parse_literal_contract :
    (∀ (s : String) (n : Bool),
      parse_literal (Expr.lit s true n) = DataValue.int ((s.toInt?).getD 0)) ∧
    (∀ (s : String), parse_literal (Expr.lit s false true) = DataValue.float s) ∧
    (∀ (s : String), parse_literal (Expr.lit s false false) = DataValue.str s) ∧
    (∀ (e : Expr), e.isLiteral = false → parse_literal e = DataValue.null) := by
  refine ⟨fun s n => rfl, fun s => rfl, fun s => rfl, ?_⟩
  intro e he
  cases e with
  | lit s bi bn => exact absurd he (by simp [Expr.isLiteral])
  | col a b => rfl
  | eq a b => rfl
  | gt a b => rfl
  | lt a b => rfl
  | and a b => rfl
  | other d => rfl

theorem parse_literal_contract_witness :
    (Expr.col "age" "users").isLiteral = false ∧
    parse_literal (Expr.col "age" "users") = DataValue.null :=
  ⟨rfl, parse_literal_contract.2.2.2 (Expr.col "age" "users") rfl⟩

def exprC9 : Expr :=
  Expr.and (Expr.eq (Expr.col "id" "users") (Expr.col "user_id" "orders"))
    (Expr.eq (Expr.col "cid" "custs") (Expr.col "pid" "pays"))

def tmC9 : Option (List String) := some ["users", "orders", "custs", "pays"]

/-- C9 (counterexample): on an AND whose two sides both resolve to join
descriptors, the resolver does not raise — it returns the first
descriptor paired with an empty filter list, silently dropping the second
join constraint. -/
theorem and_two_joins_does_not_raise :
    build_predicate exprC9 tmC9
      = Except.ok (PredResult.pair (PredResult.joinT "users" "id" "orders" "user_id") []) ∧
    ∀ msg, build_predicate exprC9 tmC9 ≠ Except.error msg := by
  constructor
  · rfl
  · intro msg h
    have h0 : build_predicate exprC9 tmC9
        = Except.ok (PredResult.pair (PredResult.joinT "users" "id" "orders" "user_id") []) :=
      rfl
    rw [h0] at h
    exact Except.noConfusion h

/-- C9 (amended/actual behavior): whenever the two sides of an AND each
resolve to a join descriptor, `build_predicate` returns the first
descriptor with an empty filter list and never raises. -/
theorem and_two_joins_keeps_first (e1 e2 : Expr) (tm : Option (List String))
    (a1 b1 c1 d1 a2 b2 c2 d2 : String)
    (h1 : build_predicate e1 tm = Except.ok (PredResult.joinT a1 b1 c1 d1))
    (h2 : build_predicate e2 tm = Except.ok (PredResult.joinT a2 b2 c2 d2)) :
    build_predicate (Expr.and e1 e2) tm
      = Except.ok (PredResult.pair (PredResult.joinT a1 b1 c1 d1) []) := by
  simp only [build_predicate, h1, h2]
  rfl

theorem and_two_joins_keeps_first_witness :
    build_predicate
        (Expr.and (Expr.eq (Expr.col "x" "t1") (Expr.col "y" "t2"))
          (Expr.eq (Expr.col "z" "t3") (Expr.col "w" "t4")))
        (some ["t1", "t2", "t3", "t4"])
      = Except.ok (PredResult.pair (PredResult.joinT "t1" "x" "t2" "y") []) :=
  and_two_joins_keeps_first _ _ _ "t1" "x" "t2" "y" "t3" "z" "t4" "w" rfl rfl
